import Mathlib

/-!
Verification development for the taskmgr status-extraction engine
(`src/taskmgr.py`).  The Python source is shallowly embedded: pure string
and list manipulation is translated to executable Lean functions, the
regular-expression primitive `re.findall` and the filesystem primitives
(`os.walk`, `os.path.getmtime`, file reads, `os.path.abspath`) are passed
in as explicit parameters or modelled by a small filesystem tree, and
fallible code returns `Except`.
-/

namespace Taskmgr

/-! ## TemplateMatcher: embedding of `TaskManager.match_file`

The Python code reverses both the template (`fnp`) and the candidate path
(`fn`), swaps the brace characters so the placeholder syntax survives
reversal, and runs the `parse` library's anchored template match on the
reversed strings.  A bare placeholder in `parse` matches one or more
characters, lazily; literal text must match exactly; the match is anchored
at both ends.  `mt` below implements exactly that matching discipline on
tokenised templates. -/

inductive Tok where
  | lit : Char → Tok
  | hole : String → Tok
deriving DecidableEq, Repr

/-- Tokeniser for the `parse`-style template mini-grammar: `{xyz}` is a
placeholder, everything else is literal text (one `Tok.lit` per char). -/
def tokenizeAux : List Char → Bool → List Char → List Tok
  | [], inHole, acc => if inHole then [Tok.hole (String.mk acc.reverse)] else []
  | c :: rest, false, _ =>
      if c = '{' then tokenizeAux rest true []
      else Tok.lit c :: tokenizeAux rest false []
  | c :: rest, true, acc =>
      if c = '}' then Tok.hole (String.mk acc.reverse) :: tokenizeAux rest false []
      else tokenizeAux rest true (c :: acc)

def tokenize (s : List Char) : List Tok := tokenizeAux s false []

/-- Anchored template match (the semantics of `parse.parse` with its default
`case_sensitive=False`): literals match case-insensitively (the compiled
regex carries `re.IGNORECASE`), a placeholder captures one or more
characters, lazily (shortest capture first), and the whole string must be
consumed.  Returns the list of named captures (original characters, not
case-folded) or `none`. -/
def mt : List Tok → List Char → Option (List (String × List Char))
  | [], [] => some []
  | [], _ :: _ => none
  | Tok.lit _ :: _, [] => none
  | Tok.lit c :: rest, d :: s => if c.toLower = d.toLower then mt rest s else none
  | Tok.hole _ :: _, [] => none
  | Tok.hole n :: rest, c :: s =>
      match mt rest s with
      | some caps => some ((n, [c]) :: caps)
      | none =>
          match mt (Tok.hole n :: rest) s with
          | some ((_, cs) :: caps) => some ((n, c :: cs) :: caps)
          | _ => none

/-- Python `str.replace(pat, rep)`: scan left to right; at each position, if
`pat` starts here, emit `rep` and skip `pat.length` characters
(non-overlapping), else copy one character.  The `Nat` argument counts
characters still to skip after an emitted replacement. -/
def replaceAux (pat rep : List Char) : List Char → Nat → List Char
  | [], _ => []
  | _ :: rest, Nat.succ skip => replaceAux pat rep rest skip
  | c :: rest, 0 =>
      if pat.isPrefixOf (c :: rest) then
        rep ++ replaceAux pat rep rest (pat.length - 1)
      else c :: replaceAux pat rep rest 0

def replaceList (pat rep s : List Char) : List Char := replaceAux pat rep s 0

/-- The reversed-template computation of `match_file`:
`fnp[::-1].replace('{','!|*#').replace('}','{').replace('!|*#','}')`.
Each `replace` is applied in full before the next one, so a literal
occurrence of the sentinel `!|*#` in the reversed template (i.e. of `#*|!`
in `fnp`) is also turned into `}` by the last stage. -/
def revTemplate (fnp : String) : List Char :=
  replaceList "!|*#".data "\x7d".data
    (replaceList "\x7d".data "\x7b".data
      (replaceList "\x7b".data "!|*#".data fnp.data.reverse))

/-- Does the sentinel `!|*#` occur as a contiguous substring? -/
def hasSentinel : List Char → Bool
  | [] => false
  | c :: rest => ("!|*#".data.isPrefixOf (c :: rest)) || hasSentinel rest

/-- `TaskManager.match_file`.  Reverses both strings, rewrites braces in the
reversed template through the three-stage `replace` chain (`revTemplate`),
matches, and reads the capture named `eman` (the reversal of `name`); a
match without such a capture raises `KeyError` in Python, modelled by
`Except.error`.  No match returns `(False, None)`. -/
def match_file (fnp fn : String) : Except String (Bool × Option String) :=
  let fnRev := fn.data.reverse
  let fnpRev := revTemplate fnp
  match mt (tokenize fnpRev) fnRev with
  | some caps =>
      match caps.lookup "eman" with
      | some v => Except.ok (true, some (String.mk v.reverse))
      | none => Except.error "eman"
  | none => Except.ok (false, none)

/-! ## Watch-group record (`TaskManager.default_group` fields) -/

structure Group where
  fnp : String
  ending : String
  builtin_func : Bool
  paths : List String
  patterns : List String
  excluded : List String
  included : List String
deriving DecidableEq, Repr

/-- `TaskManager.default_group`. -/
def default_group : Group :=
  { fnp := "{name}.{ext}", ending := "done", builtin_func := true,
    paths := [], patterns := [], excluded := [], included := [] }

/-! ## PatternProbe: the scanning loop of `TaskManager.group_panel_view`
(lines 353-380).

`re.compile(pattern, re.IGNORECASE).findall(text)` is an external
primitive; it is passed in as a parameter `fa : Findall` returning the list
of matches in left-to-right order (so `results[-1]`, the last element, is
the rightmost occurrence). -/

/-- The value stored in `found`: the termination pattern (index 0) stores
the integer scan index `ptr`, every other pattern stores the captured
text of the last match. -/
inductive PVal where
  | idx : Nat → PVal
  | txt : String → PVal
deriving DecidableEq, Repr

abbrev Found := List (String × PVal)

abbrev Findall := String → String → List String

/-- The builtin patterns inserted by `group_panel_view` when
`item['builtin_func']` is set (lines 354-359), in their final order. -/
def epochPat : String := "epoch[^\\d]*[\\d]+"
def iterPat : String := "iter[^\\d]*[\\d]+"
def lossPat : String := "loss[^\\d]*[\\d\\.]+"
def etaPat : String :=
  "eta[^\\d\\w]*(?:[\\d\\.:]+|[ ,]|days|d|hrs|hours|hour|d|mins|minutes|secs|sec|seconds)+"

/-- The effective pattern list (lines 353-360): user patterns, the four
builtins inserted in front when enabled, and the ending token inserted
first ("ending detection must be the first pattern"). -/
def mkPatterns (item : Group) : List String :=
  let patterns := item.patterns
  let patterns :=
    if item.builtin_func then
      epochPat :: iterPat :: lossPat :: etaPat :: patterns
    else patterns
  item.ending :: patterns

/-- The effective pattern list minus the leading termination pattern. -/
def effRest (item : Group) : List String :=
  (if item.builtin_func then
    epochPat :: iterPat :: lossPat :: etaPat :: item.patterns
  else item.patterns)

/-- The inner `for i, pattern in enumerate(patterns)` loop (lines 370-379)
over one file's text.  `found` is the outer dict (only consulted, never
written here), `tmp` accumulates this file's resolutions (later writes to
the same key shadow earlier ones, as in a dict), `dec` counts the
`remain -= 1` decrements. -/
def innerLoop (fa : Findall) (ptr : Nat) (text : String) (found : Found) :
    List (Nat × String) → Found → Int → Found × Int
  | [], tmp, dec => (tmp, dec)
  | (i, p) :: rest, tmp, dec =>
      if (found.lookup p).isNone then
        let results := fa p text
        if results.isEmpty then
          innerLoop fa ptr text found rest tmp dec
        else
          innerLoop fa ptr text found rest
            ((p, if i = 0 then PVal.idx ptr else PVal.txt (results.getLastD "")) :: tmp)
            (dec + 1)
      else innerLoop fa ptr text found rest tmp dec

/-- The `while remain > 0 and ptr + 1 < len(fns)` loop (lines 361-380):
`reads` is both the number of files read so far and the index `ptr` of the
next file; after each file `found.update(tmp)` merges the new resolutions
(keys are disjoint from `found` by the `pattern not in found` guard). -/
def probeGo (fa : Findall) (occs : List (Nat × String)) :
    List String → Found → Int → Nat → Found × Int × Nat
  | [], found, remain, reads => (found, remain, reads)
  | text :: rest, found, remain, reads =>
      if remain > 0 then
        let td := innerLoop fa reads text found occs [] 0
        probeGo fa occs rest (td.1 ++ found) (remain - td.2) (reads + 1)
      else (found, remain, reads)

/-- The whole probe: `found = {}; ptr = -1; remain = len(patterns)` followed
by the scanning loop.  Returns the resolution map, the final `remain` and
the number of files read. -/
def probe (fa : Findall) (patterns : List String) (texts : List String) :
    Found × Int × Nat :=
  probeGo fa patterns.enum texts [] (Int.ofNat patterns.length) 0

/-! ## StatusClassifier: the per-identity body of `group_panel_view`
(lines 346-419).

A discovered file carries its path, its modification time (the
`os.path.getmtime` oracle) and its content (the `open(fn).read()` oracle);
ANSI colouring and the human-readable duration string (lines 398-401 and
405-418) are rendering and are outside the embedded core, which instead
keeps the structured fields of each record. -/

structure LogFile where
  path : String
  mtime : Int
  text : String
deriving DecidableEq, Repr

/-- Stable insertion: `x` goes before the first element `y` with `le x y`.
A stable insertion sort is observationally the same as Python's stable
`sorted`. -/
def insertBy (le : α → α → Bool) (x : α) : List α → List α
  | [] => [x]
  | y :: ys => if le x y then x :: y :: ys else y :: insertBy le x ys

def sortBy (le : α → α → Bool) : List α → List α
  | [] => []
  | x :: xs => insertBy le x (sortBy le xs)

/-- `sorted(logs[one], key=lambda x: os.path.getmtime(x), reverse=True)`:
stable sort, most recently modified first. -/
def sortFns (fns : List LogFile) : List LogFile :=
  sortBy (fun a b => decide (b.mtime ≤ a.mtime)) fns

def pvalStr : PVal → String
  | PVal.txt s => s
  | PVal.idx n => toString n

/-- Lines 383-397: assemble the resolved values into display lines.  The
first pattern (index 0) only sets the terminal flag; every other resolved
pattern is appended, starting a new line when the current one would exceed
`width`.  `lines` is kept reversed so the current line is its head. -/
def buildItemStr (width : Option Nat) (found : Found) :
    List (Nat × String) → List String → List String
  | [], lines => lines.reverse
  | (i, p) :: rest, lines =>
      if i = 0 then buildItemStr width found rest lines
      else
        match found.lookup p with
        | none => buildItemStr width found rest lines
        | some v =>
            let s := pvalStr v
            match lines with
            | [] => buildItemStr width found rest [" " ++ s]
            | last :: prev =>
                if (match width with
                    | none => true
                    | some w => decide (last.length + s.length + 3 ≤ w)) then
                  buildItemStr width found rest ((last ++ " | " ++ s) :: prev)
                else
                  buildItemStr width found rest ((" " ++ s) :: last :: prev)

/-- One classified item record: identity, idle seconds, the resolution map,
the assembled display lines, the file list shown by `inspect`, and the
`flag` used as the grouping key (1 = ended, 0 = ongoing). -/
structure PanelRec where
  identity : String
  delta : Int
  found : Found
  item_str : List String
  files : List String
  flag : Nat
deriving DecidableEq, Repr

/-- The drop condition of lines 350-352, with Python's `and`/`or`
precedence: `inspect is None and (isinstance(duration, (int, float)) and
delta > duration and one not in include_set or one in exclude_set) or
inspect is not None and one != inspect`. -/
def dropOne (duration : Option Int) (inspect : Option String) (item : Group)
    (one : String) (delta : Int) : Bool :=
  match inspect with
  | none =>
      (match duration with
       | some dur => decide (delta > dur) && !(item.included.contains one)
       | none => false) || item.excluded.contains one
  | some nm => decide (one ≠ nm)

/-- The body of `for one in sorted(logs.keys())` (lines 346-419) for a
single identity: sort its files by recency, apply the drop filter
(line 350), probe, classify.  Returns `none` when the identity is
dropped. -/
def scanOne (now : Int) (width : Option Nat) (duration : Option Int)
    (inspect : Option String) (fa : Findall) (item : Group)
    (one : String) (fns0 : List LogFile) : Option PanelRec :=
  match sortFns fns0 with
  | [] => none
  | f0 :: fs =>
      let fns := f0 :: fs
      let delta := now - f0.mtime
      if dropOne duration inspect item one delta then none
      else
        let patterns := mkPatterns item
        let res := probe fa patterns (fns.map (·.text))
        let found := res.1
        let flag : Nat := if found.lookup item.ending = some (PVal.idx 0) then 1 else 0
        let item_str := buildItemStr width found patterns.enum []
        let files := match inspect with
          | some _ => fns.map (·.path)
          | none => []
        some ⟨one, delta, found, item_str, files, flag⟩

/-- `recs.setdefault(flag, []).append(tmp)`: association list keyed by flag,
append to the bucket, key insertion order preserved. -/
def recsAdd (recs : List (Nat × List PanelRec)) (r : PanelRec) :
    List (Nat × List PanelRec) :=
  if recs.any (fun kv => kv.1 = r.flag) then
    recs.map (fun kv => if kv.1 = r.flag then (kv.1, kv.2 ++ [r]) else kv)
  else recs ++ [(r.flag, [r])]

/-- The `recs` accumulation of lines 346-419: iterate the identities in
sorted order, scan each, and group the kept records by flag
(`recs.setdefault(flag, []).append(tmp)`). -/
def coreRecs (now : Int) (width : Option Nat) (duration : Option Int)
    (inspect : Option String) (fa : Findall) (item : Group)
    (logs : List (String × List LogFile)) : List (Nat × List PanelRec) :=
  (sortBy (fun a b : String => decide (a ≤ b)) (logs.map Prod.fst)).foldl
    (fun recs one =>
      match logs.lookup one with
      | none => recs
      | some fns0 =>
          match scanOne now width duration inspect fa item one fns0 with
          | none => recs
          | some r => recsAdd recs r) []

/-- Lines 344-422 of `group_panel_view`, after file discovery: the record
buckets of `coreRecs`, returned as the sorted flag list paired with the
corresponding record lists. -/
def groupPanelViewCore (now : Int) (width : Option Nat) (duration : Option Int)
    (inspect : Option String) (fa : Findall) (item : Group)
    (logs : List (String × List LogFile)) : List Nat × List (List PanelRec) :=
  let recs := coreRecs now width duration inspect fa item logs
  let ret_flags := sortBy (fun a b : Nat => decide (a ≤ b)) (recs.map Prod.fst)
  (ret_flags, ret_flags.map (fun f => (recs.lookup f).getD []))

/-! ## FileGrouper: discovery (lines 336-343) plus the `os.walk` model.

`os.walk(path)` yields, for each directory below `path` (top-down), the
directory path and the regular files directly inside it; invoked on a path
that is not a directory (a bare regular file, or a missing path) it yields
nothing at all. -/

inductive FSNode where
  | file : String → Int → String → FSNode
  | dir : String → List FSNode → FSNode
deriving Repr

def joinPath (dn fn : String) : String :=
  if dn.endsWith "/" then dn ++ fn else dn ++ "/" ++ fn

mutual
/-- `os.walk(p)` composed with `os.path.join`, `getmtime` and the content
oracle: the full recursive list of regular files under `p` when `p` is a
directory, and the empty list when `p` is a regular file. -/
def osWalk (p : String) : FSNode → List LogFile
  | FSNode.file _ _ _ => []
  | FSNode.dir _ ch => filesHere p ch ++ walkSubdirs p ch

def filesHere (p : String) : List FSNode → List LogFile
  | [] => []
  | FSNode.file n m t :: rest => ⟨joinPath p n, m, t⟩ :: filesHere p rest
  | FSNode.dir _ _ :: rest => filesHere p rest

def walkSubdirs (p : String) : List FSNode → List LogFile
  | [] => []
  | FSNode.dir n ch :: rest =>
      osWalk (joinPath p n) (FSNode.dir n ch) ++ walkSubdirs p rest
  | FSNode.file _ _ _ :: rest => walkSubdirs p rest
end

/-- `logs.setdefault(matched_name, []).append(fullfn)`. -/
def bucketAdd (logs : List (String × List LogFile)) (nm : String) (f : LogFile) :
    List (String × List LogFile) :=
  if logs.any (fun kv => kv.1 = nm) then
    logs.map (fun kv => if kv.1 = nm then (kv.1, kv.2 ++ [f]) else kv)
  else logs ++ [(nm, [f])]

/-- Lines 336-343: match every discovered file against the template and
bucket it under the extracted identity; a `KeyError` escaping `match_file`
aborts the scan. -/
def bucketFiles (fnp : String) (files : List LogFile) :
    Except String (List (String × List LogFile)) :=
  files.foldlM (fun logs f =>
    match match_file fnp f.path with
    | Except.error e => Except.error e
    | Except.ok (ok, nm) =>
        if ok then
          match nm with
          | some nm => Except.ok (bucketAdd logs nm f)
          | none => Except.ok logs
        else Except.ok logs) []

/-! ## Configuration state and the tag-keyed operations.

`self.cfg` is the in-memory configuration, `self.save()` writes it to the
config file; `mem`/`disk` model the two copies.  Python exceptions become
`Except.error` values: an operation that raises returns `Except.error`
without producing a new state, so neither copy changes.  `self[tag]`
(lines 147-150) raises `KeyError(tag)` when the tag is not an activated
group. -/

inductive TMErr where
  | keyError : String → TMErr
  | indexError : String → TMErr
  | valueError : String → TMErr
deriving DecidableEq, Repr

structure Cfg where
  activated : List (String × Group)
  deactivated : List (String × Group)
deriving DecidableEq, Repr

structure TMState where
  mem : Cfg
  disk : Cfg
deriving DecidableEq, Repr

/-- `self.save()`. -/
def save (s : TMState) : TMState := { s with disk := s.mem }

/-- Replace the group stored under `tag` (Python mutates it in place). -/
def putGroup (s : TMState) (tag : String) (g : Group) : TMState :=
  { s with mem := { s.mem with
      activated := s.mem.activated.map
        (fun kv => if kv.1 = tag then (tag, g) else kv) } }

/-- `TaskManager.config` (lines 152-173).  `list(set(..))` is modelled by
`dedup` (only membership is ever observed) and set difference by `filter`. -/
def config (s : TMState) (tag : String) (fnp : Option String)
    (ending : Option String) (builtin_func : Option Bool)
    (remove_all_path : Bool) (remove_all_patterns : Bool)
    (incl : Option (List String)) (excl : Option (List String)) :
    Except TMErr TMState :=
  match s.mem.activated.lookup tag with
  | none => Except.error (TMErr.keyError tag)
  | some item =>
      let item := match fnp with
        | some v => { item with fnp := v }
        | none => item
      let item := match ending with
        | some v => { item with ending := v }
        | none => item
      let item := match builtin_func with
        | some v => { item with builtin_func := v }
        | none => item
      let item := if remove_all_path then { item with paths := [] } else item
      let item := if remove_all_patterns then { item with patterns := [] } else item
      let item := match excl with
        | some ex =>
            let excluded := (item.excluded ++ ex).dedup
            { item with excluded := excluded,
                        included := item.included.dedup.filter (· ∉ excluded) }
        | none => item
      let item := match incl with
        | some inc =>
            let included := (item.included ++ inc).dedup
            { item with included := included,
                        excluded := item.excluded.dedup.filter (· ∉ included) }
        | none => item
      Except.ok (save (putGroup s tag item))

/-- `TaskManager.add_paths` (lines 198-202); `abspath` is the
`os.path.abspath` oracle. -/
def add_paths (abspath : String → String) (s : TMState) (tag : String)
    (paths : List String) : Except TMErr TMState :=
  match s.mem.activated.lookup tag with
  | none => Except.error (TMErr.keyError tag)
  | some item =>
      Except.ok (save (putGroup s tag
        { item with paths := item.paths ++ paths.map abspath }))

/-- `TaskManager.del_paths` (lines 204-213). -/
def del_paths (abspath : String → String) (s : TMState) (tag : String)
    (paths : List String) : Except TMErr TMState :=
  match s.mem.activated.lookup tag with
  | none => Except.error (TMErr.keyError tag)
  | some item =>
      let pset := paths.map abspath
      Except.ok (save (putGroup s tag
        { item with paths := item.paths.filter (fun p => abspath p ∉ pset) }))

/-- `TaskManager.add_patterns` (lines 215-219). -/
def add_patterns (s : TMState) (tag : String) (patterns : List String) :
    Except TMErr TMState :=
  match s.mem.activated.lookup tag with
  | none => Except.error (TMErr.keyError tag)
  | some item =>
      Except.ok (save (putGroup s tag
        { item with patterns := item.patterns ++ patterns }))

/-- Python `str.isdigit` on ASCII digit strings. -/
def strIsDigit (s : String) : Bool :=
  !s.isEmpty && s.data.all Char.isDigit

/-- `TaskManager.del_patterns` (lines 221-236): arguments that look like
digits remove by index, the rest remove by value. -/
def del_patterns (s : TMState) (tag : String) (patterns : List String) :
    Except TMErr TMState :=
  match s.mem.activated.lookup tag with
  | none => Except.error (TMErr.keyError tag)
  | some item =>
      let rm_set := (patterns.filter strIsDigit).map (fun p => p.toNat?.getD 0)
      let p_set := patterns.filter (fun p => !strIsDigit p)
      let newPatterns := (item.patterns.enum.filter
        (fun ip => ip.1 ∉ rm_set ∧ ip.2 ∉ p_set)).map Prod.snd
      Except.ok (save (putGroup s tag { item with patterns := newPatterns }))

/-- `TaskManager.arrange` (lines 238-249): `indices` must be a permutation
of `0..n-1` (else `IndexError`), then the pattern list is rebuilt in that
order; an index beyond the stored pattern list raises `IndexError` when
indexing. -/
def arrange (s : TMState) (tag : String) (indices : List Nat) :
    Except TMErr TMState :=
  match s.mem.activated.lookup tag with
  | none => Except.error (TMErr.keyError tag)
  | some item =>
      let n := indices.length
      if indices.dedup.length ≠ n then Except.error (TMErr.indexError (toString indices))
      else if (List.range n).any (fun i => i ∉ indices) then
        Except.error (TMErr.indexError (toString indices))
      else
        match indices.mapM (fun i => item.patterns.get? i) with
        | none => Except.error (TMErr.indexError (toString indices))
        | some newPatterns =>
            Except.ok (save (putGroup s tag { item with patterns := newPatterns }))

/-- `TaskManager.edit_patterns` (lines 251-264): the index comes either as
a digit string or as an integer and must address an existing pattern. -/
def edit_patterns (s : TMState) (tag : String) (index : String ⊕ Nat)
    (p : String) : Except TMErr TMState :=
  match s.mem.activated.lookup tag with
  | none => Except.error (TMErr.keyError tag)
  | some item =>
      let idx? : Except TMErr Nat :=
        match index with
        | Sum.inl str =>
            if strIsDigit str then Except.ok (str.toNat?.getD 0)
            else Except.error (TMErr.indexError str)
        | Sum.inr i => Except.ok i
      match idx? with
      | Except.error e => Except.error e
      | Except.ok i =>
          if i < item.patterns.length then
            Except.ok (save (putGroup s tag
              { item with patterns := item.patterns.set i p }))
          else Except.error (TMErr.indexError (toString i))

/-- `TaskManager.group_panel_view` (lines 333-422): look the tag up, walk
the group's paths through the filesystem oracle `fs`, bucket the files by
extracted identity, and run the per-identity scan.  Raises `KeyError` for
an unknown tag. -/
def group_panel_view (fs : String → Option FSNode) (fa : Findall)
    (now : Int) (s : TMState) (tag : String) (width : Option Nat)
    (duration : Option Int) (inspect : Option String) :
    Except TMErr (List Nat × List (List PanelRec)) :=
  match s.mem.activated.lookup tag with
  | none => Except.error (TMErr.keyError tag)
  | some item =>
      let walked := item.paths.flatMap (fun p =>
        match fs p with
        | none => []
        | some node => osWalk p node)
      match bucketFiles item.fnp walked with
      | Except.error _ => Except.error (TMErr.keyError "eman")
      | Except.ok logs =>
          Except.ok (groupPanelViewCore now width duration inspect fa item logs)

/-! ## Fallible reads (section 7 of the spec).

The probe loop opens each candidate file with no exception handling
(lines 364-368): the read result is an `Except`, and a failure propagates
out of the whole scan. -/

/-- The scanning loop when the read primitive can fail: identical to
`probeGo` except that a failed read aborts with that error. -/
def probeGoE (fa : Findall) (occs : List (Nat × String)) :
    List (Except String String) → Found → Int → Nat →
    Except String (Found × Int × Nat)
  | [], found, remain, reads => Except.ok (found, remain, reads)
  | t :: rest, found, remain, reads =>
      if remain > 0 then
        match t with
        | Except.error e => Except.error e
        | Except.ok text =>
            let td := innerLoop fa reads text found occs [] 0
            probeGoE fa occs rest (td.1 ++ found) (remain - td.2) (reads + 1)
      else Except.ok (found, remain, reads)

def probeE (fa : Findall) (patterns : List String)
    (texts : List (Except String String)) : Except String (Found × Int × Nat) :=
  probeGoE fa patterns.enum texts [] (Int.ofNat patterns.length) 0

/-! ## Lemmas about the template matcher -/

def litToks : List Char → List Tok
  | [] => []
  | c :: cs => Tok.lit c :: litToks cs

theorem replaceAux_cons (pat rep : List Char) (c : Char) (rest : List Char) :
    replaceAux pat rep (c :: rest) 0
      = if pat.isPrefixOf (c :: rest) then rep ++ replaceAux pat rep rest (pat.length - 1)
        else c :: replaceAux pat rep rest 0 := rfl

theorem isPrefixOf_single (p c : Char) (l : List Char) :
    List.isPrefixOf [p] (c :: l) = (p == c) := by
  show (p == c && List.isPrefixOf ([] : List Char) l) = (p == c)
  cases l <;> exact Bool.and_true _

/-- A single-character `replace` never spans a boundary, so it distributes
over append. -/
theorem replace1_append (p : Char) (rep : List Char) :
    ∀ xs ys : List Char,
      replaceList [p] rep (xs ++ ys) = replaceList [p] rep xs ++ replaceList [p] rep ys := by
  intro xs
  induction xs with
  | nil => intro ys; rfl
  | cons c xs' ih =>
      intro ys
      show replaceAux [p] rep (c :: (xs' ++ ys)) 0
          = replaceAux [p] rep (c :: xs') 0 ++ replaceList [p] rep ys
      rw [replaceAux_cons, replaceAux_cons, isPrefixOf_single, isPrefixOf_single]
      cases hpc : (p == c)
      · rw [if_neg Bool.false_ne_true, if_neg Bool.false_ne_true, List.cons_append]
        exact congrArg (c :: ·) (ih ys)
      · rw [if_pos rfl, if_pos rfl]
        show rep ++ replaceAux [p] rep (xs' ++ ys) 0
            = (rep ++ replaceAux [p] rep xs' 0) ++ replaceList [p] rep ys
        rw [List.append_assoc]
        exact congrArg (rep ++ ·) (ih ys)

/-- A single-character `replace` is the identity on strings that avoid the
character. -/
theorem replace1_id (p : Char) (rep : List Char) :
    ∀ xs : List Char, p ∉ xs → replaceList [p] rep xs = xs := by
  intro xs
  induction xs with
  | nil => intro _; rfl
  | cons c xs' ih =>
      intro h
      show replaceAux [p] rep (c :: xs') 0 = c :: xs'
      rw [replaceAux_cons, isPrefixOf_single]
      have hpc : (p == c) = false := by
        refine beq_eq_false_iff_ne.mpr fun hEq => h ?_
        rw [hEq]; exact List.mem_cons_self c xs'
      rw [hpc, if_neg Bool.false_ne_true]
      exact congrArg (c :: ·) (ih fun hm => h (List.mem_cons_of_mem c hm))

/-- The sentinel `!|*#` can never start at a position whose continuation
runs into a `'{'` (no sentinel character is a brace). -/
theorem sent_not_prefix (l zs : List Char)
    (h : List.isPrefixOf ['!', '|', '*', '#'] l = false) :
    List.isPrefixOf ['!', '|', '*', '#'] (l ++ '{' :: zs) = false := by
  have e0 : (('!' : Char) == '{') = false := by decide
  have e1 : (('|' : Char) == '{') = false := by decide
  have e2 : (('*' : Char) == '{') = false := by decide
  have e3 : (('#' : Char) == '{') = false := by decide
  rcases l with _ | ⟨a, _ | ⟨b, _ | ⟨c, _ | ⟨d, rest⟩⟩⟩⟩
  · simp [List.isPrefixOf, e0]
  · simp [List.isPrefixOf, e1]
  · simp [List.isPrefixOf, e2]
  · simp [List.isPrefixOf, e3]
  · simp only [List.cons_append]
    simp [List.isPrefixOf] at h ⊢
    exact h

/-- The sentinel-stage `replace` copies a sentinel-free chunk verbatim when
the continuation starts with `'{'`. -/
theorem sent_skip (rep : List Char) :
    ∀ xs zs : List Char, hasSentinel xs = false →
      replaceList ['!', '|', '*', '#'] rep (xs ++ '{' :: zs)
        = xs ++ replaceList ['!', '|', '*', '#'] rep ('{' :: zs) := by
  intro xs
  induction xs with
  | nil => intro zs _; rfl
  | cons c xs' ih =>
      intro zs h
      have h0 : (List.isPrefixOf ['!', '|', '*', '#'] (c :: xs') || hasSentinel xs') = false := h
      have hself : List.isPrefixOf ['!', '|', '*', '#'] (c :: xs') = false := by
        cases hp : List.isPrefixOf ['!', '|', '*', '#'] (c :: xs')
        · rfl
        · rw [hp] at h0; exact absurd h0 (by simp)
      have hrest : hasSentinel xs' = false := by
        cases hr : hasSentinel xs'
        · rfl
        · rw [hr] at h0; exact absurd h0 (by simp)
      have hnp := sent_not_prefix (c :: xs') zs hself
      rw [List.cons_append] at hnp
      show replaceAux ['!', '|', '*', '#'] rep (c :: (xs' ++ '{' :: zs)) 0
          = (c :: xs') ++ replaceList ['!', '|', '*', '#'] rep ('{' :: zs)
      rw [replaceAux_cons, hnp, if_neg Bool.false_ne_true]
      show c :: replaceList ['!', '|', '*', '#'] rep (xs' ++ '{' :: zs) = _
      rw [ih zs hrest]
      rfl

/-- The sentinel-stage `replace` is the identity on sentinel-free strings. -/
theorem sent_id (rep : List Char) :
    ∀ xs : List Char, hasSentinel xs = false →
      replaceList ['!', '|', '*', '#'] rep xs = xs := by
  intro xs
  induction xs with
  | nil => intro _; rfl
  | cons c xs' ih =>
      intro h
      have h0 : (List.isPrefixOf ['!', '|', '*', '#'] (c :: xs') || hasSentinel xs') = false := h
      have hself : List.isPrefixOf ['!', '|', '*', '#'] (c :: xs') = false := by
        cases hp : List.isPrefixOf ['!', '|', '*', '#'] (c :: xs')
        · rfl
        · rw [hp] at h0; exact absurd h0 (by simp)
      have hrest : hasSentinel xs' = false := by
        cases hr : hasSentinel xs'
        · rfl
        · rw [hr] at h0; exact absurd h0 (by simp)
      show replaceAux ['!', '|', '*', '#'] rep (c :: xs') 0 = c :: xs'
      rw [replaceAux_cons, hself, if_neg Bool.false_ne_true]
      exact congrArg (c :: ·) (ih hrest)

/-- The sentinel stage on the middle chunk: the inserted `!|*#` (from the
placeholder's `'{'`) becomes `'}'`, and a sentinel-free tail is untouched. -/
theorem r3_mid (revL1 : List Char) (h : hasSentinel revL1 = false) :
    replaceList ['!', '|', '*', '#'] ['}']
        ('{' :: 'e' :: 'm' :: 'a' :: 'n' :: '!' :: '|' :: '*' :: '#' :: revL1)
      = '{' :: 'e' :: 'm' :: 'a' :: 'n' :: '}' :: revL1 := by
  have hstep : replaceList ['!', '|', '*', '#'] ['}']
      ('{' :: 'e' :: 'm' :: 'a' :: 'n' :: '!' :: '|' :: '*' :: '#' :: revL1)
      = '{' :: 'e' :: 'm' :: 'a' :: 'n' :: '}'
          :: replaceList ['!', '|', '*', '#'] ['}'] revL1 := by
    cases revL1 <;> rfl
  rw [hstep, sent_id ['}'] revL1 h]

/-- The full three-stage replace chain of `match_file` on a
single-placeholder template with brace-free, sentinel-free literals. -/
theorem revTemplate_eq (L1 L2 : String)
    (h1 : ∀ c ∈ L1.data, c ≠ '{' ∧ c ≠ '}')
    (h2 : ∀ c ∈ L2.data, c ≠ '{' ∧ c ≠ '}')
    (hs1 : hasSentinel L1.data.reverse = false)
    (hs2 : hasSentinel L2.data.reverse = false) :
    revTemplate (L1 ++ "{name}" ++ L2)
      = L2.data.reverse ++ '{' :: 'e' :: 'm' :: 'a' :: 'n' :: '}' :: L1.data.reverse := by
  have hb1 : '{' ∉ L1.data.reverse :=
    fun hm => (h1 '{' (List.mem_reverse.mp hm)).1 rfl
  have hb1' : '}' ∉ L1.data.reverse :=
    fun hm => (h1 '}' (List.mem_reverse.mp hm)).2 rfl
  have hb2 : '{' ∉ L2.data.reverse :=
    fun hm => (h2 '{' (List.mem_reverse.mp hm)).1 rfl
  have hb2' : '}' ∉ L2.data.reverse :=
    fun hm => (h2 '}' (List.mem_reverse.mp hm)).2 rfl
  have hdata : (L1 ++ "{name}" ++ L2).data.reverse
      = L2.data.reverse
          ++ (('}' :: 'e' :: 'm' :: 'a' :: 'n' :: '{' :: []) ++ L1.data.reverse) := by
    rw [String.data_append, String.data_append, List.reverse_append, List.reverse_append]
    rw [show ("{name}".data).reverse = ('}' :: 'e' :: 'm' :: 'a' :: 'n' :: '{' :: []) from rfl]
  have hr1 : replaceList ['{'] ['!', '|', '*', '#']
        (L2.data.reverse
          ++ (('}' :: 'e' :: 'm' :: 'a' :: 'n' :: '{' :: []) ++ L1.data.reverse))
      = L2.data.reverse
          ++ (('}' :: 'e' :: 'm' :: 'a' :: 'n' :: '!' :: '|' :: '*' :: '#' :: [])
              ++ L1.data.reverse) := by
    rw [replace1_append, replace1_append, replace1_id _ _ _ hb2, replace1_id _ _ _ hb1]
    rw [show replaceList ['{'] ['!', '|', '*', '#']
          ('}' :: 'e' :: 'm' :: 'a' :: 'n' :: '{' :: [])
        = ('}' :: 'e' :: 'm' :: 'a' :: 'n' :: '!' :: '|' :: '*' :: '#' :: []) from rfl]
  have hr2 : replaceList ['}'] ['{']
        (L2.data.reverse
          ++ (('}' :: 'e' :: 'm' :: 'a' :: 'n' :: '!' :: '|' :: '*' :: '#' :: [])
              ++ L1.data.reverse))
      = L2.data.reverse
          ++ ('{' :: 'e' :: 'm' :: 'a' :: 'n' :: '!' :: '|' :: '*' :: '#' :: L1.data.reverse) := by
    rw [replace1_append, replace1_append, replace1_id _ _ _ hb2', replace1_id _ _ _ hb1']
    rw [show replaceList ['}'] ['{']
          ('}' :: 'e' :: 'm' :: 'a' :: 'n' :: '!' :: '|' :: '*' :: '#' :: [])
        = ('{' :: 'e' :: 'm' :: 'a' :: 'n' :: '!' :: '|' :: '*' :: '#' :: []) from rfl]
    rfl
  show replaceList "!|*#".data "\x7d".data
      (replaceList "\x7d".data "\x7b".data
        (replaceList "\x7b".data "!|*#".data (L1 ++ "{name}" ++ L2).data.reverse)) = _
  rw [show ("!|*#".data) = ['!', '|', '*', '#'] from rfl,
      show ("\x7d".data) = ['}'] from rfl, show ("\x7b".data) = ['{'] from rfl,
      hdata, hr1, hr2,
      sent_skip ['}'] L2.data.reverse
        ('e' :: 'm' :: 'a' :: 'n' :: '!' :: '|' :: '*' :: '#' :: L1.data.reverse) hs2,
      r3_mid L1.data.reverse hs1]

theorem tokenizeAux_lits {l : List Char} (h : ∀ c ∈ l, c ≠ '{') :
    ∀ rest : List Char,
      tokenizeAux (l ++ rest) false [] = litToks l ++ tokenizeAux rest false [] := by
  induction l with
  | nil => intro rest; rfl
  | cons c cs ih =>
      intro rest
      have hc := h c (List.mem_cons_self c cs)
      show (if c = '{' then tokenizeAux (cs ++ rest) true []
            else Tok.lit c :: tokenizeAux (cs ++ rest) false [])
          = (Tok.lit c :: litToks cs) ++ tokenizeAux rest false []
      rw [if_neg hc, ih (fun d hd => h d (List.mem_cons_of_mem c hd)) rest]
      rfl

theorem tokenize_template {L1 L2 : List Char}
    (h1 : ∀ c ∈ L1, c ≠ '{') (h2 : ∀ c ∈ L2, c ≠ '{') :
    tokenize (L1 ++ '{' :: 'e' :: 'm' :: 'a' :: 'n' :: '}' :: L2)
      = litToks L1 ++ Tok.hole "eman" :: litToks L2 := by
  unfold tokenize
  rw [tokenizeAux_lits h1]
  have hmid : tokenizeAux ('{' :: 'e' :: 'm' :: 'a' :: 'n' :: '}' :: L2) false []
      = Tok.hole "eman" :: tokenizeAux L2 false [] := rfl
  rw [hmid]
  have h3 : tokenizeAux L2 false [] = litToks L2 := by
    have h4 := tokenizeAux_lits h2 []
    simpa [tokenizeAux] using h4
  rw [h3]

theorem mt_lits_append : ∀ (l : List Char) (ts : List Tok) (s : List Char),
    mt (litToks l ++ ts) (l ++ s) = mt ts s := by
  intro l
  induction l with
  | nil => intro ts s; rfl
  | cons c cs ih =>
      intro ts s
      show (if c.toLower = c.toLower then mt (litToks cs ++ ts) (cs ++ s) else none)
          = mt ts s
      rw [if_pos rfl]
      exact ih ts s

theorem mt_lits_self : ∀ l : List Char, mt (litToks l) l = some [] := by
  intro l
  induction l with
  | nil => rfl
  | cons c cs ih =>
      show (if c.toLower = c.toLower then mt (litToks cs) cs else none) = some []
      rw [if_pos rfl]
      exact ih

theorem mt_lits_some_length : ∀ (l s : List Char) (caps : List (String × List Char)),
    mt (litToks l) s = some caps → s.length = l.length := by
  intro l
  induction l with
  | nil =>
      intro s caps h
      match s with
      | [] => rfl
      | d :: s' => exact Option.noConfusion h
  | cons c cs ih =>
      intro s caps h
      match s with
      | [] => exact Option.noConfusion h
      | d :: s' =>
          rw [show mt (litToks (c :: cs)) (d :: s')
              = (if c.toLower = d.toLower then mt (litToks cs) s' else none) from rfl] at h
          by_cases hcd : c.toLower = d.toLower
          · rw [if_pos hcd] at h
            have := ih s' caps h
            simp [List.length_cons, this]
          · rw [if_neg hcd] at h
            exact Option.noConfusion h

theorem mt_hole_mid : ∀ (mid lend : List Char) (n : String), mid ≠ [] →
    mt (Tok.hole n :: litToks lend) (mid ++ lend) = some [(n, mid)] := by
  intro mid
  induction mid with
  | nil => intro lend n h; exact absurd rfl h
  | cons c mid' ih =>
      intro lend n _
      cases mid' with
      | nil =>
          have hl : mt (litToks lend) lend = some [] := mt_lits_self lend
          show (match mt (litToks lend) lend with
                | some caps => some ((n, [c]) :: caps)
                | none =>
                    match mt (Tok.hole n :: litToks lend) lend with
                    | some ((_, cs) :: caps) => some ((n, c :: cs) :: caps)
                    | _ => none) = some [(n, [c])]
          rw [hl]
      | cons e mid'' =>
          have hne : (e :: mid'') ≠ [] := List.cons_ne_nil e mid''
          have h1 : mt (litToks lend) ((e :: mid'') ++ lend) = none := by
            cases hmm : mt (litToks lend) ((e :: mid'') ++ lend) with
            | none => rfl
            | some caps =>
                exfalso
                have hlen := mt_lits_some_length lend ((e :: mid'') ++ lend) caps hmm
                rw [List.length_append, List.length_cons] at hlen
                omega
          have h2 := ih lend n hne
          show (match mt (litToks lend) ((e :: mid'') ++ lend) with
                | some caps => some ((n, [c]) :: caps)
                | none =>
                    match mt (Tok.hole n :: litToks lend) ((e :: mid'') ++ lend) with
                    | some ((_, cs) :: caps) => some ((n, c :: cs) :: caps)
                    | _ => none) = some [(n, c :: e :: mid'')]
          rw [h1, h2]

/-- `match_file` on a template of the form `L1 ++ "{name}" ++ L2` whose
literals are brace-free and (reversed) sentinel-free reduces to the
anchored reversed match with the `eman` capture. -/
theorem match_file_template (L1 L2 fn : String)
    (h1 : ∀ c ∈ L1.data, c ≠ '{' ∧ c ≠ '}') (h2 : ∀ c ∈ L2.data, c ≠ '{' ∧ c ≠ '}')
    (hs1 : hasSentinel L1.data.reverse = false)
    (hs2 : hasSentinel L2.data.reverse = false) :
    match_file (L1 ++ "{name}" ++ L2) fn =
      (match mt (litToks L2.data.reverse ++ Tok.hole "eman" :: litToks L1.data.reverse)
          fn.data.reverse with
       | some caps =>
          (match caps.lookup "eman" with
           | some v => Except.ok (true, some (String.mk v.reverse))
           | none => Except.error "eman")
       | none => Except.ok (false, none)) := by
  have htoks : tokenize (revTemplate (L1 ++ "{name}" ++ L2))
      = litToks L2.data.reverse ++ Tok.hole "eman" :: litToks L1.data.reverse := by
    rw [revTemplate_eq L1 L2 h1 h2 hs1 hs2]
    exact tokenize_template
      (fun c hc => ((h2 c (List.mem_reverse.mp hc)).1))
      (fun c hc => ((h1 c (List.mem_reverse.mp hc)).1))
  simp only [match_file]
  rw [htoks]

/-! ## Claims C5 and C6 -/

/-- C5, counterexamples: the round-trip claim fails (a) for the empty
identity — with template `"{name}.log"` and `I = ""` (trivially free of the
template's separator characters) the built path `".log"` does not match
back, since a placeholder captures at least one character — and (b) for a
template literal containing `"#*|!"`: the matcher's internal replace chain
turns its reversal `!|*#` into `'}'`, so with `L1 = "#*|!"`, `I = "run"`,
`L2 = ".log"` the built path fails to match its own template.  Both return
`(False, None)` where the claim requires `(true, I)`. -/
theorem c5_counterexample :
    (match_file ("" ++ "{name}" ++ ".log") ("" ++ "" ++ ".log") = Except.ok (false, none)
      ∧ ((false : Bool), (none : Option String)) ≠ ((true : Bool), some ""))
    ∧ (match_file ("#*|!" ++ "{name}" ++ ".log") ("#*|!" ++ "run" ++ ".log")
          = Except.ok (false, none)
      ∧ ((false : Bool), (none : Option String)) ≠ ((true : Bool), some "run")) :=
  ⟨⟨rfl, by decide⟩, ⟨rfl, by decide⟩⟩

/-- C5 (amended): for a single-placeholder template `L1 ++ "{name}" ++ L2`
whose literals are brace-free and contain no occurrence of `"#*|!"` (whose
reversal is the replace chain's sentinel `!|*#`), and a NONEMPTY identity
`I` free of the template's separator characters, substituting `I` into the
placeholder and matching the built path back yields `(true, I)`. -/
theorem c5_roundtrip (L1 L2 I : String)
    (h1 : ∀ c ∈ L1.data, c ≠ '{' ∧ c ≠ '}')
    (h2 : ∀ c ∈ L2.data, c ≠ '{' ∧ c ≠ '}')
    (hs1 : hasSentinel L1.data.reverse = false)
    (hs2 : hasSentinel L2.data.reverse = false)
    (hI : I ≠ "")
    (_hsep : ∀ c ∈ I.data, c ∉ L1.data ∧ c ∉ L2.data) :
    match_file (L1 ++ "{name}" ++ L2) (L1 ++ I ++ L2) = Except.ok (true, some I) := by
  have hIdata : I.data.reverse ≠ [] := by
    intro h
    apply hI
    have hd : I.data = [] := by simpa using congrArg List.reverse h
    cases I
    simp_all
  have hfn : (L1 ++ I ++ L2).data.reverse
      = L2.data.reverse ++ (I.data.reverse ++ L1.data.reverse) := by
    rw [String.data_append, String.data_append, List.reverse_append, List.reverse_append]
  rw [match_file_template L1 L2 _ h1 h2 hs1 hs2, hfn, mt_lits_append,
      mt_hole_mid _ _ _ hIdata]
  show (match List.lookup "eman" [("eman", I.data.reverse)] with
        | some v => Except.ok (true, some (String.mk v.reverse))
        | none => Except.error "eman") = Except.ok (true, some I)
  simp [List.lookup]

/-- C5 amended, witness at `L1 = "exp/"`, `L2 = ".log"`, `I = "run1"`. -/
theorem c5_roundtrip_witness :
    match_file ("exp/" ++ "{name}" ++ ".log") ("exp/" ++ "run1" ++ ".log")
      = Except.ok (true, some "run1") :=
  c5_roundtrip "exp/" ".log" "run1" (by decide) (by decide) (by decide) (by decide)
    (by decide) (by decide)

/-- C7 (code bug): discovery iterates `os.walk(path)`, which yields nothing
when `path` is a bare regular file, so such a root contributes no candidate
at all — even though the very same path would match the template and
extract an identity.  Evaluated at a root that IS a regular file
`run1.log` containing `"epoch 3"`. -/
theorem c7_file_root_ignored :
    osWalk "run1.log" (FSNode.file "run1.log" 100 "epoch 3") = []
    ∧ bucketFiles "{name}.log" (osWalk "run1.log" (FSNode.file "run1.log" 100 "epoch 3"))
        = Except.ok []
    ∧ match_file "{name}.log" "run1.log" = Except.ok (true, some "run1") := by
  refine ⟨?_, ?_, ?_⟩
  · simp [osWalk]
  · simp [osWalk, bucketFiles]; rfl
  · rfl

/-- C9 (code bug): the probe loop reads each candidate file with no
exception handling, so a failed read aborts the whole scan with the error
instead of skipping the file: with the newest file unreadable the probe
returns the error, although scanning just the remaining file would have
resolved the termination pattern. -/
theorem c9_read_error_aborts :
    probeE (fun p t => if p = "done" && t = "done" then ["done"] else []) ["done"]
        [Except.error "unreadable", Except.ok "done"]
      = Except.error "unreadable"
    ∧ probeE (fun p t => if p = "done" && t = "done" then ["done"] else []) ["done"]
        [Except.ok "done"]
      = Except.ok ([("done", PVal.idx 0)], 0, 1) :=
  ⟨rfl, rfl⟩

/-- C10: every tag-keyed operation (`config`, `add_paths`, `del_paths`,
`add_patterns`, `del_patterns`, `arrange`, `edit_patterns`,
`group_panel_view`) performs the `self[tag]` lookup first and fails with
`KeyError tag` when the tag is not an activated group, before any mutation:
the error result carries no new state, so both the in-memory and the
on-disk configuration stay what they were. -/
theorem c10_tag_lookup_atomic (s : TMState) (tag : String)
    (abspath : String → String) (fs : String → Option FSNode) (fa : Findall)
    (now : Int) (fnp ending : Option String) (bf : Option Bool)
    (rap rapat : Bool) (incl excl : Option (List String))
    (paths patterns : List String) (indices : List Nat) (idx : String ⊕ Nat)
    (p : String) (width : Option Nat) (duration : Option Int)
    (inspect : Option String)
    (h : s.mem.activated.lookup tag = none) :
    config s tag fnp ending bf rap rapat incl excl = Except.error (TMErr.keyError tag)
    ∧ add_paths abspath s tag paths = Except.error (TMErr.keyError tag)
    ∧ del_paths abspath s tag paths = Except.error (TMErr.keyError tag)
    ∧ add_patterns s tag patterns = Except.error (TMErr.keyError tag)
    ∧ del_patterns s tag patterns = Except.error (TMErr.keyError tag)
    ∧ arrange s tag indices = Except.error (TMErr.keyError tag)
    ∧ edit_patterns s tag idx p = Except.error (TMErr.keyError tag)
    ∧ group_panel_view fs fa now s tag width duration inspect
        = Except.error (TMErr.keyError tag) := by
  refine ⟨?_, ?_, ?_, ?_, ?_, ?_, ?_, ?_⟩ <;>
    simp [config, add_paths, del_paths, add_patterns, del_patterns, arrange,
      edit_patterns, group_panel_view, h]

/-- C10, witness: all eight operations fail with `KeyError "g"` on the
empty configuration. -/
theorem c10_tag_lookup_atomic_witness :
    config ⟨⟨[], []⟩, ⟨[], []⟩⟩ "g" none none none false false none none
        = Except.error (TMErr.keyError "g")
    ∧ add_paths id ⟨⟨[], []⟩, ⟨[], []⟩⟩ "g" [] = Except.error (TMErr.keyError "g")
    ∧ del_paths id ⟨⟨[], []⟩, ⟨[], []⟩⟩ "g" [] = Except.error (TMErr.keyError "g")
    ∧ add_patterns ⟨⟨[], []⟩, ⟨[], []⟩⟩ "g" [] = Except.error (TMErr.keyError "g")
    ∧ del_patterns ⟨⟨[], []⟩, ⟨[], []⟩⟩ "g" [] = Except.error (TMErr.keyError "g")
    ∧ arrange ⟨⟨[], []⟩, ⟨[], []⟩⟩ "g" [] = Except.error (TMErr.keyError "g")
    ∧ edit_patterns ⟨⟨[], []⟩, ⟨[], []⟩⟩ "g" (Sum.inr 0) "p"
        = Except.error (TMErr.keyError "g")
    ∧ group_panel_view (fun _ => none) (fun _ _ => []) 0 ⟨⟨[], []⟩, ⟨[], []⟩⟩ "g"
        none none none = Except.error (TMErr.keyError "g") :=
  c10_tag_lookup_atomic ⟨⟨[], []⟩, ⟨[], []⟩⟩ "g" id (fun _ => none) (fun _ _ => [])
    0 none none none false false none none [] [] [] (Sum.inr 0) "p" none none none rfl

/-! ## Lemmas about the probe loop -/

/-- The value the inner loop would store for pattern `p` when scanning one
file: determined by the LAST occurrence of `p` in the enumerated pattern
list (later writes to `tmp[p]` shadow earlier ones), `PVal.idx ptr` when
that occurrence is at index 0, otherwise the last element of the `findall`
result `res`. -/
def occsVal (p : String) (ptr : Nat) (res : List String) :
    List (Nat × String) → Option PVal
  | [] => none
  | (i, q) :: rest =>
      match occsVal p ptr res rest with
      | some v => some v
      | none =>
          if q = p then
            some (if i = 0 then PVal.idx ptr else PVal.txt (res.getLastD ""))
          else none

/-- Number of enumerated patterns not yet in `found` (the quantity tracked
by `remain`). -/
def unresolved (found : Found) (occs : List (Nat × String)) : Nat :=
  (occs.filter (fun iq => (found.lookup iq.2).isNone)).length

theorem lookup_append (l₁ l₂ : Found) (p : String) :
    List.lookup p (l₁ ++ l₂)
      = match List.lookup p l₁ with
        | some v => some v
        | none => List.lookup p l₂ := by
  induction l₁ with
  | nil => rfl
  | cons kv l ih =>
      obtain ⟨q, v⟩ := kv
      by_cases hpq : p = q
      · subst hpq
        simp [List.lookup]
      · have hbeq : (p == q) = false := beq_eq_false_iff_ne.mpr hpq
        simp [List.lookup, hbeq, ih]

theorem filter_partition {α : Type} (b c : α → Bool) (l : List α) :
    (l.filter b).length
      = (l.filter (fun a => b a && c a)).length
        + (l.filter (fun a => b a && !(c a))).length := by
  induction l with
  | nil => rfl
  | cons a l ih =>
      cases hb : b a <;> cases hc : c a <;>
        simp [List.filter_cons, hb, hc, ih] <;> omega

theorem occsVal_none_of_not_mem (p : String) (ptr : Nat) (res : List String) :
    ∀ occs : List (Nat × String), (∀ iq ∈ occs, iq.2 ≠ p) →
      occsVal p ptr res occs = none := by
  intro occs
  induction occs with
  | nil => intro _; rfl
  | cons iq rest ih =>
      intro h
      obtain ⟨i, q⟩ := iq
      have hrest := ih fun x hx => h x (List.mem_cons_of_mem _ hx)
      have hq : q ≠ p := h (i, q) (List.mem_cons_self _ _)
      simp [occsVal, hrest, hq]

theorem occsVal_isSome_of_mem (p : String) (ptr : Nat) (res : List String) :
    ∀ (occs : List (Nat × String)) (i : Nat), (i, p) ∈ occs →
      (occsVal p ptr res occs).isSome := by
  intro occs
  induction occs with
  | nil => intro i h; cases h
  | cons iq rest ih =>
      intro i h
      obtain ⟨j, q⟩ := iq
      rcases List.mem_cons.mp h with h1 | h2
      · cases h1
        cases hrest : occsVal p ptr res rest <;> simp [occsVal, hrest]
      · have := ih i h2
        cases hrest : occsVal p ptr res rest <;> simp [occsVal, hrest] at this ⊢

/-- What one file pass records for pattern `p`: nothing new unless `p` is
still unresolved and matches this text, in which case the value determined
by `p`'s last occurrence in the pattern list is stored. -/
theorem innerLoop_lookup (fa : Findall) (ptr : Nat) (t : String) (found : Found)
    (p : String) :
    ∀ (occs : List (Nat × String)) (tmp : Found) (dec : Int),
    (innerLoop fa ptr t found occs tmp dec).1.lookup p
      = if List.lookup p found = none ∧ fa p t ≠ [] then
          (match occsVal p ptr (fa p t) occs with
           | some v => some v
           | none => List.lookup p tmp)
        else List.lookup p tmp := by
  intro occs
  induction occs with
  | nil =>
      intro tmp dec
      by_cases h : List.lookup p found = none ∧ fa p t ≠ []
      · rw [if_pos h]; rfl
      · rw [if_neg h]; rfl
  | cons iq rest ih =>
      obtain ⟨i, q⟩ := iq
      intro tmp dec
      rcases hq : List.lookup q found with _ | v
      · rcases hres : fa q t with _ | ⟨r, rs⟩
        · -- this pattern does not match the text: tmp unchanged
          have hstep : innerLoop fa ptr t found ((i, q) :: rest) tmp dec
              = innerLoop fa ptr t found rest tmp dec := by
            simp [innerLoop, hq, hres]
          rw [hstep, ih tmp dec]
          by_cases hqp : q = p
          · subst hqp
            by_cases hc : List.lookup q found = none ∧ fa q t ≠ []
            · exact absurd hres hc.2
            · rw [if_neg hc, if_neg hc]
          · have hov : occsVal p ptr (fa p t) ((i, q) :: rest)
                = occsVal p ptr (fa p t) rest := by
              cases hrest : occsVal p ptr (fa p t) rest <;>
                simp [occsVal, hrest, hqp]
            rw [hov]
        · -- the pattern fires: tmp gains an entry for q
          have hstep : innerLoop fa ptr t found ((i, q) :: rest) tmp dec
              = innerLoop fa ptr t found rest
                  ((q, if i = 0 then PVal.idx ptr
                       else PVal.txt ((r :: rs).getLastD "")) :: tmp)
                  (dec + 1) := by
            simp [innerLoop, hq, hres]
          rw [hstep, ih _ _]
          by_cases hqp : q = p
          · subst hqp
            have hc : List.lookup q found = none ∧ fa q t ≠ [] :=
              ⟨hq, by rw [hres]; simp⟩
            rw [if_pos hc, if_pos hc]
            cases hrest : occsVal q ptr (fa q t) rest with
            | some v => simp [occsVal, hrest]
            | none =>
                rw [hres] at hrest
                simp [occsVal, hrest, List.lookup, hres]
          · have hov : occsVal p ptr (fa p t) ((i, q) :: rest)
                = occsVal p ptr (fa p t) rest := by
              cases hrest : occsVal p ptr (fa p t) rest <;>
                simp [occsVal, hrest, hqp]
            have hlk : ∀ w : PVal, List.lookup p ((q, w) :: tmp) = List.lookup p tmp := by
              intro w
              have hbeq : (p == q) = false := beq_eq_false_iff_ne.mpr (Ne.symm hqp)
              simp [List.lookup, hbeq]
            rw [hov]
            by_cases hc : List.lookup p found = none ∧ fa p t ≠ []
            · rw [if_pos hc, if_pos hc]
              cases hrest : occsVal p ptr (fa p t) rest <;> simp [hlk]
            · rw [if_neg hc, if_neg hc]
              exact hlk _
      · -- q already resolved: skipped entirely
        have hstep : innerLoop fa ptr t found ((i, q) :: rest) tmp dec
            = innerLoop fa ptr t found rest tmp dec := by
          simp [innerLoop, hq]
        rw [hstep, ih tmp dec]
        by_cases hqp : q = p
        · subst hqp
          by_cases hc : List.lookup q found = none ∧ fa q t ≠ []
          · rw [hq] at hc; exact absurd hc.1 (by simp)
          · rw [if_neg hc, if_neg hc]
        · have hov : occsVal p ptr (fa p t) ((i, q) :: rest)
              = occsVal p ptr (fa p t) rest := by
            cases hrest : occsVal p ptr (fa p t) rest <;>
              simp [occsVal, hrest, hqp]
          rw [hov]

/-- The number of `remain -= 1` decrements in one file pass: the number of
enumerated patterns that are unresolved and match this text. -/
theorem innerLoop_dec (fa : Findall) (ptr : Nat) (t : String) (found : Found) :
    ∀ (occs : List (Nat × String)) (tmp : Found) (dec : Int),
    (innerLoop fa ptr t found occs tmp dec).2
      = dec + ((occs.filter
          (fun iq => (List.lookup iq.2 found).isNone
            && !(fa iq.2 t).isEmpty)).length : Int) := by
  intro occs
  induction occs with
  | nil => intro tmp dec; simp [innerLoop]
  | cons iq rest ih =>
      obtain ⟨i, q⟩ := iq
      intro tmp dec
      rcases hq : List.lookup q found with _ | v
      · rcases hres : fa q t with _ | ⟨r, rs⟩
        · have hstep : innerLoop fa ptr t found ((i, q) :: rest) tmp dec
              = innerLoop fa ptr t found rest tmp dec := by
            simp [innerLoop, hq, hres]
          rw [hstep, ih tmp dec]
          simp [List.filter_cons, hq, hres]
        · have hstep : innerLoop fa ptr t found ((i, q) :: rest) tmp dec
              = innerLoop fa ptr t found rest
                  ((q, if i = 0 then PVal.idx ptr
                       else PVal.txt ((fa q t).getLastD "")) :: tmp)
                  (dec + 1) := by
            simp [innerLoop, hq, hres]
          rw [hstep, ih _ _]
          simp [List.filter_cons, hq, hres]
          omega
      · have hstep : innerLoop fa ptr t found ((i, q) :: rest) tmp dec
            = innerLoop fa ptr t found rest tmp dec := by
          simp [innerLoop, hq]
        rw [hstep, ih tmp dec]
        simp [List.filter_cons, hq]

/-- Effect of one file pass on the merged `found` map. -/
theorem step_lookup (fa : Findall) (reads : Nat) (t : String) (found : Found)
    (occs : List (Nat × String)) (p : String) :
    List.lookup p ((innerLoop fa reads t found occs [] 0).1 ++ found)
      = if List.lookup p found = none ∧ fa p t ≠ [] then
          (match occsVal p reads (fa p t) occs with
           | some v => some v
           | none => none)
        else List.lookup p found := by
  rw [lookup_append, innerLoop_lookup]
  by_cases hc : List.lookup p found = none ∧ fa p t ≠ []
  · rw [if_pos hc, if_pos hc]
    cases hov : occsVal p reads (fa p t) occs with
    | some v => simp
    | none => simpa using hc.1
  · rw [if_neg hc, if_neg hc]
    simp [List.lookup]

/-- One file pass decrements `remain` by exactly the number of patterns it
newly resolves. -/
theorem step_remain (fa : Findall) (reads : Nat) (t : String) (found : Found)
    (occs : List (Nat × String)) :
    (unresolved found occs : Int) - (innerLoop fa reads t found occs [] 0).2
      = (unresolved ((innerLoop fa reads t found occs [] 0).1 ++ found) occs : Int) := by
  have hafter : unresolved ((innerLoop fa reads t found occs [] 0).1 ++ found) occs
      = (occs.filter (fun iq => (List.lookup iq.2 found).isNone
          && (fa iq.2 t).isEmpty)).length := by
    unfold unresolved
    rw [List.filter_congr]
    intro iq hiq
    obtain ⟨i, q⟩ := iq
    rw [step_lookup]
    by_cases hc : List.lookup q found = none ∧ fa q t ≠ []
    · rw [if_pos hc]
      have hsome := occsVal_isSome_of_mem q reads (fa q t) occs i hiq
      cases hov : occsVal q reads (fa q t) occs with
      | none => rw [hov] at hsome; simp at hsome
      | some v =>
          have hemp : (fa q t).isEmpty = false := by
            cases hfa : fa q t
            · exact absurd hfa hc.2
            · rfl
          simp [hc.1, hemp]
    · rw [if_neg hc]
      rcases not_and_or.mp hc with h1 | h2
      · cases hlq : List.lookup q found with
        | none => exact absurd hlq h1
        | some v => simp [hlq]
      · have hfa : fa q t = [] := not_ne_iff.mp h2
        simp [hfa]
  have hpart := filter_partition (fun iq : Nat × String => (List.lookup iq.2 found).isNone)
      (fun iq : Nat × String => (fa iq.2 t).isEmpty) occs
  rw [innerLoop_dec, hafter]
  unfold unresolved at hpart ⊢
  omega

theorem probeGo_stop (fa : Findall) (occs : List (Nat × String))
    (texts : List String) (found : Found) (remain : Int) (reads : Nat)
    (h : ¬remain > 0) :
    probeGo fa occs texts found remain reads = (found, remain, reads) := by
  cases texts with
  | nil => rfl
  | cons t rest => simp [probeGo, h]

theorem probeGo_append (fa : Findall) (occs : List (Nat × String)) :
    ∀ (l1 l2 : List String) (found : Found) (remain : Int) (reads : Nat),
    probeGo fa occs (l1 ++ l2) found remain reads
      = probeGo fa occs l2 (probeGo fa occs l1 found remain reads).1
          (probeGo fa occs l1 found remain reads).2.1
          (probeGo fa occs l1 found remain reads).2.2 := by
  intro l1
  induction l1 with
  | nil => intro l2 found remain reads; rfl
  | cons t l1' ih =>
      intro l2 found remain reads
      by_cases h : remain > 0
      · simp only [List.cons_append, probeGo, if_pos h]
        exact ih l2 _ _ _
      · rw [List.cons_append,
            probeGo_stop fa occs (t :: (l1' ++ l2)) found remain reads h,
            probeGo_stop fa occs (t :: l1') found remain reads h]
        exact (probeGo_stop fa occs l2 found remain reads h).symm

theorem probeGo_reads_le (fa : Findall) (occs : List (Nat × String)) :
    ∀ (texts : List String) (found : Found) (remain : Int) (reads : Nat),
    (probeGo fa occs texts found remain reads).2.2 ≤ reads + texts.length := by
  intro texts
  induction texts with
  | nil => intro found remain reads; simp [probeGo]
  | cons t rest ih =>
      intro found remain reads
      by_cases h : remain > 0
      · simp only [probeGo, if_pos h]
        have := ih ((innerLoop fa reads t found occs [] 0).1 ++ found)
          (remain - (innerLoop fa reads t found occs [] 0).2) (reads + 1)
        simp only [List.length_cons]
        omega
      · rw [probeGo_stop fa occs _ found remain reads h]
        simp

theorem probeGo_reads_mono (fa : Findall) (occs : List (Nat × String)) :
    ∀ (texts : List String) (found : Found) (remain : Int) (reads : Nat),
    reads ≤ (probeGo fa occs texts found remain reads).2.2 := by
  intro texts
  induction texts with
  | nil => intro found remain reads; simp [probeGo]
  | cons t rest ih =>
      intro found remain reads
      by_cases h : remain > 0
      · simp only [probeGo, if_pos h]
        have := ih ((innerLoop fa reads t found occs [] 0).1 ++ found)
          (remain - (innerLoop fa reads t found occs [] 0).2) (reads + 1)
        omega
      · rw [probeGo_stop fa occs _ found remain reads h]

theorem probeGo_all_read (fa : Findall) (occs : List (Nat × String)) :
    ∀ (texts : List String) (found : Found) (remain : Int) (reads : Nat),
    (probeGo fa occs texts found remain reads).2.1 > 0 →
    (probeGo fa occs texts found remain reads).2.2 = reads + texts.length := by
  intro texts
  induction texts with
  | nil => intro found remain reads _; simp [probeGo]
  | cons t rest ih =>
      intro found remain reads hpos
      by_cases h : remain > 0
      · simp only [probeGo, if_pos h] at hpos ⊢
        have := ih ((innerLoop fa reads t found occs [] 0).1 ++ found)
          (remain - (innerLoop fa reads t found occs [] 0).2) (reads + 1) hpos
        simp only [List.length_cons]
        omega
      · rw [probeGo_stop fa occs _ found remain reads h] at hpos ⊢
        exact absurd hpos h

/-- `remain` always equals the number of still-unresolved enumerated
patterns. -/
theorem probeGo_invariant (fa : Findall) (occs : List (Nat × String)) :
    ∀ (texts : List String) (found : Found) (remain : Int) (reads : Nat),
    remain = (unresolved found occs : Int) →
    (probeGo fa occs texts found remain reads).2.1
      = (unresolved (probeGo fa occs texts found remain reads).1 occs : Int) := by
  intro texts
  induction texts with
  | nil => intro found remain reads h; simpa [probeGo] using h
  | cons t rest ih =>
      intro found remain reads h
      by_cases hr : remain > 0
      · simp only [probeGo, if_pos hr]
        apply ih
        rw [h]
        exact step_remain fa reads t found occs
      · rw [probeGo_stop fa occs _ found remain reads hr]
        exact h

/-- Once resolved, a pattern's value never changes. -/
theorem probeGo_persist (fa : Findall) (occs : List (Nat × String))
    (p : String) (v : PVal) :
    ∀ (texts : List String) (found : Found) (remain : Int) (reads : Nat),
    List.lookup p found = some v →
    List.lookup p (probeGo fa occs texts found remain reads).1 = some v := by
  intro texts
  induction texts with
  | nil => intro found remain reads h; simpa [probeGo] using h
  | cons t rest ih =>
      intro found remain reads h
      by_cases hr : remain > 0
      · simp only [probeGo, if_pos hr]
        apply ih
        rw [step_lookup, if_neg]
        · exact h
        · intro hc
          rw [h] at hc
          exact Option.noConfusion hc.1
      · rw [probeGo_stop fa occs _ found remain reads hr]
        exact h

theorem unresolved_nil_found (occs : List (Nat × String)) :
    unresolved [] occs = occs.length := by
  unfold unresolved
  have : occs.filter (fun iq => (List.lookup iq.2 ([] : Found)).isNone) = occs :=
    List.filter_eq_self.mpr fun a _ => rfl
  rw [this]

theorem unresolved_pos (occs : List (Nat × String)) (found : Found)
    (i : Nat) (p : String) (hmem : (i, p) ∈ occs)
    (hp : List.lookup p found = none) : 0 < unresolved found occs := by
  unfold unresolved
  have hmf : (i, p) ∈ occs.filter (fun iq => (List.lookup iq.2 found).isNone) :=
    List.mem_filter.mpr ⟨hmem, by simp [hp]⟩
  exact List.length_pos.mpr (List.ne_nil_of_mem hmf)

theorem unresolved_eq_zero (found : Found) (occs : List (Nat × String)) :
    unresolved found occs = 0 ↔ ∀ iq ∈ occs, (List.lookup iq.2 found).isSome := by
  unfold unresolved
  rw [List.length_eq_zero, List.filter_eq_nil_iff]
  constructor <;> intro h iq hiq <;> have h5 := h iq hiq <;>
    cases hlq : List.lookup iq.2 found <;> simp_all

/-- Every pattern of the effective list has an entry in `found`. -/
def allResolved (patterns : List String) (found : Found) : Prop :=
  ∀ p ∈ patterns, (List.lookup p found).isSome

theorem allResolved_iff (patterns : List String) (found : Found) :
    allResolved patterns found
      ↔ ∀ iq ∈ patterns.enum, (List.lookup iq.2 found).isSome := by
  unfold allResolved
  constructor
  · intro h iq hiq
    apply h
    have hmem : iq.2 ∈ patterns.enum.map Prod.snd := List.mem_map.mpr ⟨iq, hiq, rfl⟩
    rwa [List.enum_map_snd] at hmem
  · intro h p hp
    rw [← List.enum_map_snd patterns] at hp
    obtain ⟨iq, hiq, h2⟩ := List.mem_map.mp hp
    exact h2 ▸ h iq hiq

/-- C4: the probe (a) never reads more files than the identity has, (b)
never reads past any prefix that already resolves every pattern — once the
last unresolved pattern resolves, no further file is read — and (c) when it
stops before exhausting the files, the files it did read already resolve
every pattern.  Together: scanning stops as soon as either all patterns
are resolved or all files have been scanned. -/
theorem c4_early_exit (fa : Findall) (patterns : List String) (texts : List String) :
    (probe fa patterns texts).2.2 ≤ texts.length
    ∧ (∀ m : Nat, allResolved patterns (probe fa patterns (texts.take m)).1 →
        (probe fa patterns texts).2.2 ≤ m)
    ∧ ((probe fa patterns texts).2.2 < texts.length →
        allResolved patterns
          (probe fa patterns (texts.take ((probe fa patterns texts).2.2))).1) := by
  simp only [probe]
  have hinit : (Int.ofNat patterns.length) = (unresolved [] patterns.enum : Int) := by
    rw [unresolved_nil_found, List.enum_length]
    rfl
  refine ⟨?_, ?_, ?_⟩
  · have h1 := probeGo_reads_le fa patterns.enum texts [] (Int.ofNat patterns.length) 0
    omega
  · intro m hres
    by_cases hm : m < texts.length
    · have hdecomp := probeGo_append fa patterns.enum (texts.take m) (texts.drop m)
        [] (Int.ofNat patterns.length) 0
      rw [List.take_append_drop] at hdecomp
      have hinv := probeGo_invariant fa patterns.enum (texts.take m) []
        (Int.ofNat patterns.length) 0 hinit
      have hz : unresolved
          (probeGo fa patterns.enum (texts.take m) [] (Int.ofNat patterns.length) 0).1
            patterns.enum = 0 :=
        (unresolved_eq_zero _ _).mpr ((allResolved_iff _ _).mp hres)
      have hstop : ¬ (probeGo fa patterns.enum (texts.take m) []
          (Int.ofNat patterns.length) 0).2.1 > 0 := by
        rw [hinv, hz]
        simp
      have hEq : probeGo fa patterns.enum texts [] (Int.ofNat patterns.length) 0
          = probeGo fa patterns.enum (texts.take m) [] (Int.ofNat patterns.length) 0 := by
        rw [hdecomp, probeGo_stop _ _ _ _ _ _ hstop]
      rw [hEq]
      have h2 := probeGo_reads_le fa patterns.enum (texts.take m) []
        (Int.ofNat patterns.length) 0
      have h3 : (texts.take m).length ≤ m := by simp
      omega
    · have h1 := probeGo_reads_le fa patterns.enum texts [] (Int.ofNat patterns.length) 0
      omega
  · intro hn
    set n := (probeGo fa patterns.enum texts [] (Int.ofNat patterns.length) 0).2.2 with hndef
    have hdecomp := probeGo_append fa patterns.enum (texts.take n) (texts.drop n)
      [] (Int.ofNat patterns.length) 0
    rw [List.take_append_drop] at hdecomp
    set sn := probeGo fa patterns.enum (texts.take n) [] (Int.ofNat patterns.length) 0
      with hsn
    have hinv := probeGo_invariant fa patterns.enum (texts.take n) []
      (Int.ofNat patterns.length) 0 hinit
    by_cases hrem : sn.2.1 > 0
    · exfalso
      have hreads : sn.2.2 = 0 + (texts.take n).length :=
        probeGo_all_read _ _ _ _ _ _ hrem
      have hlen : (texts.take n).length = n := by
        simp
        omega
      obtain ⟨t, rest, hdr⟩ : ∃ t rest, texts.drop n = t :: rest := by
        cases hd : texts.drop n with
        | nil =>
            exfalso
            have hl := congrArg List.length hd
            simp at hl
            omega
        | cons t r => exact ⟨t, r, rfl⟩
      have hstep : (probeGo fa patterns.enum (texts.drop n) sn.1 sn.2.1 sn.2.2).2.2
          ≥ sn.2.2 + 1 := by
        rw [hdr]
        simp only [probeGo, if_pos hrem]
        exact probeGo_reads_mono fa patterns.enum rest _ _ (sn.2.2 + 1)
      have hEqn : (probeGo fa patterns.enum (texts.drop n) sn.1 sn.2.1 sn.2.2).2.2 = n := by
        rw [← hdecomp]
      omega
    · have hz : unresolved sn.1 patterns.enum = 0 := by
        rw [← hsn] at hinv
        omega
      exact (allResolved_iff _ _).mpr ((unresolved_eq_zero _ _).mp hz)

/-- C4, witness: with one pattern resolving in the first of two files, the
second file is never read. -/
theorem c4_early_exit_witness :
    (probe (fun p t => if p = "done" && t = "done" then ["done"] else [])
      ["done"] ["done", "other"]).2.2 ≤ 1 :=
  (c4_early_exit (fun p t => if p = "done" && t = "done" then ["done"] else [])
    ["done"] ["done", "other"]).2.1 1 (by
      intro p hp
      simp only [List.mem_singleton] at hp
      subst hp
      rfl)

theorem occsVal_enumFrom (p : String) (ptr : Nat) (res : List String) :
    ∀ (rest : List String) (n : Nat), 1 ≤ n → p ∈ rest →
      occsVal p ptr res (List.enumFrom n rest) = some (PVal.txt (res.getLastD "")) := by
  intro rest
  induction rest with
  | nil => intro n _ hp; cases hp
  | cons q rest' ih =>
      intro n hn hp
      rw [List.enumFrom_cons]
      by_cases hpr : p ∈ rest'
      · have h1 := ih (n + 1) (by omega) hpr
        simp [occsVal, h1]
      · have hpq : q = p := by
          rcases List.mem_cons.mp hp with h | h
          · exact h.symm
          · exact absurd h hpr
        have hnone : occsVal p ptr res (List.enumFrom (n + 1) rest') = none := by
          apply occsVal_none_of_not_mem
          intro iq hiq h2
          apply hpr
          rw [← h2]
          have hm : iq.2 ∈ (List.enumFrom (n + 1) rest').map Prod.snd :=
            List.mem_map.mpr ⟨iq, hiq, rfl⟩
          rwa [List.enumFrom_map_snd] at hm
        have hn0 : n ≠ 0 := by omega
        simp [occsVal, hnone, hpq, hn0]

/-- A pattern occurring after the head of the effective list always stores
captured text (even when it equals the head, the later write shadows the
scan index). -/
theorem occsVal_enum_rest (p0 : String) (rest : List String) (p : String)
    (hp : p ∈ rest) (ptr : Nat) (res : List String) :
    occsVal p ptr res ((p0 :: rest).enum) = some (PVal.txt (res.getLastD "")) := by
  rw [List.enum_cons]
  have h1 := occsVal_enumFrom p ptr res rest 1 (le_refl 1) hp
  simp [occsVal, h1]

/-- When the termination token occurs nowhere else in the effective list,
its stored value is always the scan index. -/
theorem occsVal_enum_head (p0 : String) (rest : List String) (hp : p0 ∉ rest)
    (ptr : Nat) (res : List String) :
    occsVal p0 ptr res ((p0 :: rest).enum) = some (PVal.idx ptr) := by
  rw [List.enum_cons]
  have hnone : occsVal p0 ptr res (List.enumFrom 1 rest) = none := by
    apply occsVal_none_of_not_mem
    intro iq hiq h2
    apply hp
    rw [← h2]
    have hm : iq.2 ∈ (List.enumFrom 1 rest).map Prod.snd :=
      List.mem_map.mpr ⟨iq, hiq, rfl⟩
    rwa [List.enumFrom_map_snd] at hm
  simp [occsVal, hnone]

theorem occsVal_shape (p : String) (ptr : Nat) (res : List String) :
    ∀ (occs : List (Nat × String)) (v : PVal), occsVal p ptr res occs = some v →
      v = PVal.idx ptr ∨ ∃ s, v = PVal.txt s := by
  intro occs
  induction occs with
  | nil => intro v h; exact Option.noConfusion h
  | cons iq rest ih =>
      intro v h
      obtain ⟨i, q⟩ := iq
      cases hrest : occsVal p ptr res rest with
      | some w =>
          have hc : occsVal p ptr res ((i, q) :: rest) = some w := by
            simp [occsVal, hrest]
          rw [hc] at h
          have hv : w = v := Option.some.inj h
          subst hv
          exact ih w hrest
      | none =>
          have hc : occsVal p ptr res ((i, q) :: rest)
              = if q = p then
                  some (if i = 0 then PVal.idx ptr else PVal.txt (res.getLastD ""))
                else none := by
            simp [occsVal, hrest]
          rw [hc] at h
          by_cases hq : q = p
          · rw [if_pos hq] at h
            have hv := Option.some.inj h
            by_cases hi : i = 0
            · left; rw [← hv, if_pos hi]
            · right; exact ⟨_, by rw [← hv, if_neg hi]⟩
          · rw [if_neg hq] at h; exact Option.noConfusion h

/-- The probe resolves pattern `p` from the FIRST (most recent) file whose
text it matches, storing the value prescribed by `p`'s occurrences in the
effective list; no older file is consulted for `p`. -/
theorem probeGo_resolves (fa : Findall) (occs : List (Nat × String)) (p : String)
    (vf : Nat → List String → PVal)
    (hval : ∀ ptr res, occsVal p ptr res occs = some (vf ptr res)) :
    ∀ (texts : List String) (found : Found) (reads : Nat) (k : Nat),
    List.lookup p found = none →
    k < texts.length →
    fa p (texts.getD k "") ≠ [] →
    (∀ j, j < k → fa p (texts.getD j "") = []) →
    List.lookup p (probeGo fa occs texts found (unresolved found occs : Int) reads).1
      = some (vf (reads + k) (fa p (texts.getD k ""))) := by
  have hmem : ∃ i, (i, p) ∈ occs := by
    by_contra hno
    push_neg at hno
    have hnm : ∀ iq ∈ occs, iq.2 ≠ p := by
      intro iq hiq h2
      apply hno iq.1
      have hiq2 : (iq.1, p) = iq := by
        rw [← h2]
      rw [hiq2]
      exact hiq
    have h0 := occsVal_none_of_not_mem p 0 [] occs hnm
    rw [hval 0 []] at h0
    exact Option.noConfusion h0
  obtain ⟨i0, hi0⟩ := hmem
  intro texts
  induction texts with
  | nil => intro found reads k _ hk; exact absurd hk (by simp)
  | cons t rest ih =>
      intro found reads k hf hk hmatch hbefore
      have hpos : (unresolved found occs : Int) > 0 := by
        have := unresolved_pos occs found i0 p hi0 hf
        omega
      simp only [probeGo, if_pos hpos]
      cases k with
      | zero =>
          have hm : fa p t ≠ [] := by simpa using hmatch
          have hlk : List.lookup p ((innerLoop fa reads t found occs [] 0).1 ++ found)
              = some (vf reads (fa p t)) := by
            rw [step_lookup, if_pos ⟨hf, hm⟩, hval reads (fa p t)]
          have hp := probeGo_persist fa occs p (vf reads (fa p t)) rest
            ((innerLoop fa reads t found occs [] 0).1 ++ found)
            ((unresolved found occs : Int) - (innerLoop fa reads t found occs [] 0).2)
            (reads + 1) hlk
          simpa using hp
      | succ j =>
          have h0 : fa p t = [] := by simpa using hbefore 0 (Nat.succ_pos j)
          have hf' : List.lookup p ((innerLoop fa reads t found occs [] 0).1 ++ found)
              = none := by
            rw [step_lookup, if_neg]
            · exact hf
            · intro hc; exact hc.2 h0
          have hrem := step_remain fa reads t found occs
          rw [hrem]
          have hih := ih _ (reads + 1) j hf' (by simpa using hk) (by simpa using hmatch)
            (fun j' hj' => by simpa using hbefore (j' + 1) (by omega))
          have harith : reads + 1 + j = reads + (j + 1) := by omega
          rw [harith] at hih
          simpa using hih

/-- Once the first file has been read without the head pattern matching,
the head pattern can never end up with scan index 0. -/
theorem probeGo_no_idx_zero (fa : Findall) (occs : List (Nat × String)) (p0 : String) :
    ∀ (texts : List String) (found : Found) (remain : Int) (reads : Nat),
    List.lookup p0 found = none → 1 ≤ reads →
    List.lookup p0 (probeGo fa occs texts found remain reads).1
      ≠ some (PVal.idx 0) := by
  intro texts
  induction texts with
  | nil =>
      intro found remain reads hf _
      simp [probeGo, hf]
  | cons t rest ih =>
      intro found remain reads hf hr
      by_cases hrem : remain > 0
      · simp only [probeGo, if_pos hrem]
        by_cases hc : List.lookup p0 found = none ∧ fa p0 t ≠ []
        · cases hov : occsVal p0 reads (fa p0 t) occs with
          | none =>
              have hf' : List.lookup p0
                  ((innerLoop fa reads t found occs [] 0).1 ++ found) = none := by
                rw [step_lookup, if_pos hc, hov]
              exact ih _ (remain - (innerLoop fa reads t found occs [] 0).2)
                (reads + 1) hf' (by omega)
          | some v =>
              have hlk : List.lookup p0
                  ((innerLoop fa reads t found occs [] 0).1 ++ found) = some v := by
                rw [step_lookup, if_pos hc, hov]
              have hpersist := probeGo_persist fa occs p0 v rest
                ((innerLoop fa reads t found occs [] 0).1 ++ found)
                (remain - (innerLoop fa reads t found occs [] 0).2) (reads + 1) hlk
              rw [hpersist]
              intro hEq
              have hv := Option.some.inj hEq
              rcases occsVal_shape p0 reads (fa p0 t) occs v hov with h1 | ⟨s, h2⟩
              · rw [h1] at hv
                have := PVal.idx.inj hv
                omega
              · rw [h2] at hv
                exact PVal.noConfusion hv
        · have hf' : List.lookup p0
              ((innerLoop fa reads t found occs [] 0).1 ++ found) = none := by
            rw [step_lookup, if_neg hc]
            exact hf
          exact ih _ (remain - (innerLoop fa reads t found occs [] 0).2)
            (reads + 1) hf' (by omega)
      · rw [probeGo_stop _ _ _ _ _ _ hrem]
        simp [hf]

/-- C1, probe level: with the termination token occurring only at the head
of the effective list, the stored value is scan index 0 exactly when the
token matches the newest file. -/
theorem probe_terminal_iff (fa : Findall) (p0 : String) (rest : List String)
    (hp0 : p0 ∉ rest) (t0 : String) (ts : List String) :
    (List.lookup p0 (probe fa (p0 :: rest) (t0 :: ts)).1 = some (PVal.idx 0))
      ↔ fa p0 t0 ≠ [] := by
  simp only [probe]
  have hval : ∀ ptr res, occsVal p0 ptr res ((p0 :: rest).enum) = some (PVal.idx ptr) :=
    fun ptr res => occsVal_enum_head p0 rest hp0 ptr res
  constructor
  · intro h
    by_contra hno
    have h0 : fa p0 t0 = [] := hno
    have hpos : (Int.ofNat (p0 :: rest).length) > 0 := by
      simp [List.length_cons]
    simp only [probeGo, if_pos hpos] at h
    have hf' : List.lookup p0
        ((innerLoop fa 0 t0 [] ((p0 :: rest).enum) [] 0).1 ++ ([] : Found)) = none := by
      rw [step_lookup, if_neg]
      · rfl
      · intro hc
        exact hc.2 h0
    exact probeGo_no_idx_zero fa _ p0 ts _ _ 1 hf' (le_refl 1) h
  · intro hm
    have hinit : (Int.ofNat (p0 :: rest).length)
        = (unresolved [] ((p0 :: rest).enum) : Int) := by
      rw [unresolved_nil_found, List.enum_length]
      rfl
    rw [hinit]
    have hres := probeGo_resolves fa ((p0 :: rest).enum) p0 (fun ptr _ => PVal.idx ptr)
      hval (t0 :: ts) [] 0 0 rfl (by simp) (by simpa using hm)
      (fun j hj => absurd hj (by omega))
    simpa using hres

/-! ## Claims C1 and C2 -/

theorem mkPatterns_eq (item : Group) :
    mkPatterns item = item.ending :: effRest item := rfl

/-- C2: for every non-termination pattern `p` of the effective list, the
resolved value is the LAST (rightmost) `findall` occurrence within the text
of the most recent file matching `p` (file index `k`, every newer file not
matching); no older file is consulted for `p`. -/
theorem c2_recency_last_match (fa : Findall) (item : Group) (texts : List String)
    (p : String) (k : Nat) (hp : p ∈ effRest item) (hk : k < texts.length)
    (hmatch : fa p (texts.getD k "") ≠ [])
    (hbefore : ∀ j, j < k → fa p (texts.getD j "") = []) :
    List.lookup p (probe fa (mkPatterns item) texts).1
      = some (PVal.txt ((fa p (texts.getD k "")).getLastD "")) := by
  rw [mkPatterns_eq]
  simp only [probe]
  have hinit : (Int.ofNat (item.ending :: effRest item).length)
      = (unresolved [] ((item.ending :: effRest item).enum) : Int) := by
    rw [unresolved_nil_found, List.enum_length]
    rfl
  rw [hinit]
  have hval : ∀ ptr res, occsVal p ptr res ((item.ending :: effRest item).enum)
      = some (PVal.txt (res.getLastD "")) :=
    fun ptr res => occsVal_enum_rest item.ending (effRest item) p hp ptr res
  have hres := probeGo_resolves fa ((item.ending :: effRest item).enum) p
    (fun _ res => PVal.txt (res.getLastD "")) hval texts [] 0 k rfl hk hmatch hbefore
  simpa using hres

/-- C2, witness: `"loss"` does not match the newest file, matches twice in
the next one; the resolved value is the rightmost occurrence `"0.2"` of
that file. -/
theorem c2_recency_witness :
    List.lookup "loss" (probe
        (fun p t => if p = "loss" && t = "loss 0.5 loss 0.2" then ["0.5", "0.2"] else [])
        (mkPatterns ⟨"{name}.log", "done", false, [], ["loss"], [], []⟩)
        ["nothing here", "loss 0.5 loss 0.2"]).1
      = some (PVal.txt "0.2") :=
  c2_recency_last_match
    (fun p t => if p = "loss" && t = "loss 0.5 loss 0.2" then ["0.5", "0.2"] else [])
    ⟨"{name}.log", "done", false, [], ["loss"], [], []⟩
    ["nothing here", "loss 0.5 loss 0.2"] "loss" 1 (by decide) (by decide) (by decide)
    (fun j hj => by
      have hj0 : j = 0 := by omega
      subst hj0
      rfl)

/-- C1, counterexample: the claim's "terminal iff the termination token
matched in the newest file" fails when the token also occurs among the
user patterns.  Group with `ending = "done"` and `patterns = ["done"]`,
one file whose text matches the token: the duplicate's captured text
overwrites the scan index, so the record is classified ongoing
(`flag = 0`) although the token matched the newest file (scan index 0). -/
theorem c1_counterexample :
    scanOne 200 none none none
        (fun p t => if p = "done" && t = "done" then ["done"] else [])
        ⟨"{name}.log", "done", false, [], ["done"], [], []⟩ "run1"
        [⟨"run1.log", 100, "done"⟩]
      = some ⟨"run1", 100, [("done", PVal.txt "done"), ("done", PVal.idx 0)],
          [" done"], [], 0⟩
    ∧ (fun p t : String => if p = "done" && t = "done" then ["done"] else [])
        "done" "done" ≠ [] := by
  refine ⟨rfl, by decide⟩

/-- C1 (amended): provided the termination token does not also occur among
the other effective patterns, a record produced by the scan is classified
ended (`flag = 1`) iff the token matches the newest file's text, and
ongoing (`flag = 0`) otherwise — in particular when the token occurs only
in older files. -/
theorem c1_terminal_iff (now : Int) (width : Option Nat) (duration : Option Int)
    (fa : Findall) (item : Group) (one : String) (fns : List LogFile) (r : PanelRec)
    (hend : item.ending ∉ effRest item)
    (hr : scanOne now width duration none fa item one fns = some r) :
    (r.flag = 1 ↔ fa item.ending ((sortFns fns).headD ⟨"", 0, ""⟩).text ≠ []) := by
  cases hsf : sortFns fns with
  | nil =>
      unfold scanOne at hr
      rw [hsf] at hr
      exact Option.noConfusion hr
  | cons f0 fs =>
      unfold scanOne at hr
      rw [hsf] at hr
      simp only [] at hr
      split at hr
      · exact Option.noConfusion hr
      · have hrec := Option.some.inj hr
        have hflag : r.flag
            = (if List.lookup item.ending
                  (probe fa (mkPatterns item) (List.map (fun f => f.text) (f0 :: fs))).1
                  = some (PVal.idx 0)
               then 1 else 0) := by
          rw [← hrec]
        have hiff := probe_terminal_iff fa item.ending (effRest item) hend
          f0.text (fs.map (fun f => f.text))
        simp only [List.headD_cons]
        rw [hflag, mkPatterns_eq]
        simp only [List.map_cons]
        constructor
        · intro h1
          by_cases hc : List.lookup item.ending
              (probe fa (item.ending :: effRest item)
                (f0.text :: List.map (fun f => f.text) fs)).1 = some (PVal.idx 0)
          · exact hiff.mp hc
          · rw [if_neg hc] at h1
            exact absurd h1 (by omega)
        · intro h2
          rw [if_pos (hiff.mpr h2)]

/-- C1 amended, witness: token `"done"` matches the single (newest) file,
no duplicate among patterns, and the record is classified ended. -/
theorem c1_terminal_iff_witness :
    ((⟨"run1", 100, [("done", PVal.idx 0)], [], [], 1⟩ : PanelRec).flag = 1
      ↔ (fun p t => if p = "done" && t = "all done" then ["done"] else [])
          "done"
          ((sortFns [⟨"run1.log", 100, "all done"⟩]).headD ⟨"", 0, ""⟩).text ≠ []) :=
  c1_terminal_iff 200 none none
    (fun p t => if p = "done" && t = "all done" then ["done"] else [])
    ⟨"{name}.log", "done", false, [], [], [], []⟩ "run1"
    [⟨"run1.log", 100, "all done"⟩]
    ⟨"run1", 100, [("done", PVal.idx 0)], [], [], 1⟩ (by decide) rfl

/-! ## Lemmas about the per-identity loop and the record buckets -/

theorem mem_insertBy {α : Type} (le : α → α → Bool) (x a : α) :
    ∀ l : List α, a ∈ insertBy le x l ↔ a = x ∨ a ∈ l := by
  intro l
  induction l with
  | nil => simp [insertBy]
  | cons y ys ih =>
      by_cases h : le x y
      · simp [insertBy, h]
      · simp only [insertBy, if_neg h, List.mem_cons, ih]
        tauto

theorem mem_sortBy {α : Type} (le : α → α → Bool) (a : α) :
    ∀ l : List α, a ∈ sortBy le l ↔ a ∈ l := by
  intro l
  induction l with
  | nil => simp [sortBy]
  | cons x xs ih =>
      simp only [sortBy, mem_insertBy, List.mem_cons, ih]

theorem lookup_mem {α β : Type} [BEq α] [LawfulBEq α] :
    ∀ (l : List (α × β)) (a : α) (b : β), l.lookup a = some b → (a, b) ∈ l := by
  intro l
  induction l with
  | nil => intro a b h; exact Option.noConfusion h
  | cons kv l ih =>
      intro a b h
      obtain ⟨k, v⟩ := kv
      by_cases hak : a == k
      · have hak' : a = k := eq_of_beq hak
        subst hak'
        simp [List.lookup] at h
        subst h
        exact List.mem_cons_self _ _
      · rw [Bool.not_eq_true] at hak
        simp [List.lookup, hak] at h
        exact List.mem_cons_of_mem _ (ih a b h)

theorem lookup_of_mem_nodup {α β : Type} [BEq α] [LawfulBEq α] :
    ∀ (l : List (α × β)), (l.map Prod.fst).Nodup →
      ∀ (a : α) (b : β), (a, b) ∈ l → l.lookup a = some b := by
  intro l
  induction l with
  | nil => intro _ a b h; cases h
  | cons kv l ih =>
      intro hnd a b h
      obtain ⟨k, v⟩ := kv
      rw [List.map_cons, List.nodup_cons] at hnd
      rcases List.mem_cons.mp h with h1 | h2
      · obtain ⟨h1a, h1b⟩ := Prod.mk.injEq .. ▸ h1
        subst h1a; subst h1b
        simp [List.lookup]
      · have hak : ¬a = k := by
          intro hEq
          subst hEq
          exact hnd.1 (List.mem_map.mpr ⟨(a, b), h2, rfl⟩)
        have hbeq : (a == k) = false := beq_eq_false_iff_ne.mpr hak
        simp [List.lookup, hbeq]
        exact ih hnd.2 a b h2

theorem scanOne_identity (now : Int) (width : Option Nat) (duration : Option Int)
    (inspect : Option String) (fa : Findall) (item : Group) (one : String)
    (fns : List LogFile) (r : PanelRec)
    (h : scanOne now width duration inspect fa item one fns = some r) :
    r.identity = one := by
  unfold scanOne at h
  rcases hsf : sortFns fns with _ | ⟨f0, fs⟩ <;> rw [hsf] at h
  · exact Option.noConfusion h
  · simp only [] at h
    split at h
    · exact Option.noConfusion h
    · rw [← Option.some.inj h]

/-- `r` as produced by a kept identity: the structured fields computed by
lines 353-419. -/
theorem scanOne_some_eq (now : Int) (width : Option Nat) (duration : Option Int)
    (fa : Findall) (item : Group) (one : String) (fns : List LogFile)
    (r : PanelRec) (f0 : LogFile) (fs : List LogFile)
    (hsf : sortFns fns = f0 :: fs)
    (h : scanOne now width duration none fa item one fns = some r) :
    r = ⟨one, now - f0.mtime,
          (probe fa (mkPatterns item) ((f0 :: fs).map (fun f => f.text))).1,
          buildItemStr width
            (probe fa (mkPatterns item) ((f0 :: fs).map (fun f => f.text))).1
            (mkPatterns item).enum [],
          [],
          if List.lookup item.ending
              (probe fa (mkPatterns item) ((f0 :: fs).map (fun f => f.text))).1
              = some (PVal.idx 0)
          then 1 else 0⟩ := by
  unfold scanOne at h
  rw [hsf] at h
  simp only [] at h
  split at h
  · exact Option.noConfusion h
  · exact (Option.some.inj h).symm

/-- Some record of some bucket satisfies `P`. -/
def InRecsP (recs : List (Nat × List PanelRec)) (P : PanelRec → Prop) : Prop :=
  ∃ e ∈ recs, ∃ r ∈ e.2, P r

theorem inRecsP_recsAdd (recs : List (Nat × List PanelRec)) (r : PanelRec)
    (P : PanelRec → Prop) :
    InRecsP (recsAdd recs r) P ↔ InRecsP recs P ∨ P r := by
  unfold recsAdd InRecsP
  by_cases hk : recs.any (fun kv => kv.1 = r.flag)
  · rw [if_pos hk]
    constructor
    · rintro ⟨e, he, s, hs, hP⟩
      obtain ⟨e0, he0, heq⟩ := List.mem_map.mp he
      by_cases hef : e0.1 = r.flag
      · rw [if_pos hef] at heq
        subst heq
        rcases List.mem_append.mp hs with h1 | h2
        · exact Or.inl ⟨e0, he0, s, h1, hP⟩
        · rw [List.mem_singleton] at h2
          subst h2
          exact Or.inr hP
      · rw [if_neg hef] at heq
        subst heq
        exact Or.inl ⟨e0, he0, s, hs, hP⟩
    · rintro (⟨e, he, s, hs, hP⟩ | hP)
      · refine ⟨if e.1 = r.flag then (e.1, e.2 ++ [r]) else e,
          List.mem_map.mpr ⟨e, he, rfl⟩, s, ?_, hP⟩
        by_cases hef : e.1 = r.flag
        · rw [if_pos hef]
          exact List.mem_append.mpr (Or.inl hs)
        · rw [if_neg hef]
          exact hs
      · obtain ⟨e, he, hef⟩ := List.any_eq_true.mp hk
        have hef' : e.1 = r.flag := of_decide_eq_true hef
        refine ⟨(e.1, e.2 ++ [r]), List.mem_map.mpr ⟨e, he, by rw [if_pos hef']⟩,
          r, List.mem_append.mpr (Or.inr (List.mem_singleton.mpr rfl)), hP⟩
  · rw [if_neg hk]
    constructor
    · rintro ⟨e, he, s, hs, hP⟩
      rcases List.mem_append.mp he with h1 | h2
      · exact Or.inl ⟨e, h1, s, hs, hP⟩
      · rw [List.mem_singleton] at h2
        subst h2
        rw [List.mem_singleton] at hs
        subst hs
        exact Or.inr hP
    · rintro (⟨e, he, s, hs, hP⟩ | hP)
      · exact ⟨e, List.mem_append.mpr (Or.inl he), s, hs, hP⟩
      · exact ⟨(r.flag, [r]), List.mem_append.mpr (Or.inr (List.mem_singleton.mpr rfl)),
          r, List.mem_singleton.mpr rfl, hP⟩

theorem fold_inRecsP (now : Int) (width : Option Nat) (duration : Option Int)
    (inspect : Option String) (fa : Findall) (item : Group)
    (logs : List (String × List LogFile)) (P : PanelRec → Prop) :
    ∀ (keys : List String) (recs0 : List (Nat × List PanelRec)),
    InRecsP (keys.foldl (fun recs one =>
      match logs.lookup one with
      | none => recs
      | some fns0 =>
          match scanOne now width duration inspect fa item one fns0 with
          | none => recs
          | some r => recsAdd recs r) recs0) P
      ↔ InRecsP recs0 P
        ∨ ∃ k ∈ keys, ∃ fns r, logs.lookup k = some fns
            ∧ scanOne now width duration inspect fa item k fns = some r ∧ P r := by
  intro keys
  induction keys with
  | nil =>
      intro recs0
      simp [List.foldl]
  | cons k keys ih =>
      intro recs0
      rw [List.foldl_cons]
      rcases hlk : logs.lookup k with _ | fns0
      · simp only [hlk]
        rw [ih]
        constructor
        · rintro (h | ⟨k', hk', rest⟩)
          · exact Or.inl h
          · exact Or.inr ⟨k', List.mem_cons_of_mem _ hk', rest⟩
        · rintro (h | ⟨k', hk', fns, r, hl, hs, hP⟩)
          · exact Or.inl h
          · rcases List.mem_cons.mp hk' with h1 | hk''
            · subst h1
              rw [hlk] at hl
              exact Option.noConfusion hl
            · exact Or.inr ⟨k', hk'', fns, r, hl, hs, hP⟩
      · rcases hsc : scanOne now width duration inspect fa item k fns0 with _ | r
        · simp only [hlk, hsc]
          rw [ih]
          constructor
          · rintro (h | ⟨k', hk', rest⟩)
            · exact Or.inl h
            · exact Or.inr ⟨k', List.mem_cons_of_mem _ hk', rest⟩
          · rintro (h | ⟨k', hk', fns, r', hl, hs, hP⟩)
            · exact Or.inl h
            · rcases List.mem_cons.mp hk' with h1 | hk''
              · subst h1
                rw [hlk] at hl
                have hfns : fns0 = fns := Option.some.inj hl
                subst hfns
                rw [hsc] at hs
                exact Option.noConfusion hs
              · exact Or.inr ⟨k', hk'', fns, r', hl, hs, hP⟩
        · simp only [hlk, hsc]
          rw [ih, inRecsP_recsAdd]
          constructor
          · rintro ((h | hPr) | ⟨k', hk', rest⟩)
            · exact Or.inl h
            · exact Or.inr ⟨k, List.mem_cons_self _ _, fns0, r, hlk, hsc, hPr⟩
            · exact Or.inr ⟨k', List.mem_cons_of_mem _ hk', rest⟩
          · rintro (h | ⟨k', hk', fns, r', hl, hs, hP⟩)
            · exact Or.inl (Or.inl h)
            · rcases List.mem_cons.mp hk' with h1 | hk''
              · subst h1
                rw [hlk] at hl
                have hfns : fns0 = fns := Option.some.inj hl
                subst hfns
                rw [hsc] at hs
                have hr : r = r' := Option.some.inj hs
                subst hr
                exact Or.inl (Or.inr hP)
              · exact Or.inr ⟨k', hk'', fns, r', hl, hs, hP⟩

theorem recsAdd_keys_nodup (recs : List (Nat × List PanelRec)) (r : PanelRec)
    (h : (recs.map Prod.fst).Nodup) : ((recsAdd recs r).map Prod.fst).Nodup := by
  unfold recsAdd
  by_cases hk : recs.any (fun kv => kv.1 = r.flag)
  · rw [if_pos hk]
    have hmap : (recs.map (fun kv =>
        if kv.1 = r.flag then (kv.1, kv.2 ++ [r]) else kv)).map Prod.fst
        = recs.map Prod.fst := by
      rw [List.map_map]
      apply List.map_congr_left
      intro kv _
      by_cases hef : kv.1 = r.flag
      · rw [Function.comp_apply, if_pos hef]
      · rw [Function.comp_apply, if_neg hef]
    rw [hmap]
    exact h
  · rw [if_neg hk, List.map_append]
    refine List.Nodup.append h (List.nodup_singleton _) ?_
    intro a ha hb
    rw [List.map_singleton, List.mem_singleton] at hb
    subst hb
    obtain ⟨kv, hkv, hfst⟩ := List.mem_map.mp ha
    apply hk
    exact List.any_eq_true.mpr ⟨kv, hkv, decide_eq_true hfst⟩

theorem fold_keys_nodup (now : Int) (width : Option Nat) (duration : Option Int)
    (inspect : Option String) (fa : Findall) (item : Group)
    (logs : List (String × List LogFile)) :
    ∀ (keys : List String) (recs0 : List (Nat × List PanelRec)),
    (recs0.map Prod.fst).Nodup →
    ((keys.foldl (fun recs one =>
      match logs.lookup one with
      | none => recs
      | some fns0 =>
          match scanOne now width duration inspect fa item one fns0 with
          | none => recs
          | some r => recsAdd recs r) recs0).map Prod.fst).Nodup := by
  intro keys
  induction keys with
  | nil => intro recs0 h; exact h
  | cons k keys ih =>
      intro recs0 h
      rw [List.foldl_cons]
      rcases hlk : logs.lookup k with _ | fns0
      · simp only [hlk]
        exact ih recs0 h
      · rcases hsc : scanOne now width duration inspect fa item k fns0 with _ | r
        · simp only [hlk, hsc]
          exact ih recs0 h
        · simp only [hlk, hsc]
          exact ih (recsAdd recs0 r) (recsAdd_keys_nodup recs0 r h)

/-- Membership in the assembled output is membership in the record
accumulation. -/
theorem core_out_iff (now : Int) (width : Option Nat) (duration : Option Int)
    (inspect : Option String) (fa : Findall) (item : Group)
    (logs : List (String × List LogFile)) (P : PanelRec → Prop) :
    (∃ l ∈ (groupPanelViewCore now width duration inspect fa item logs).2,
        ∃ r ∈ l, P r)
      ↔ InRecsP (coreRecs now width duration inspect fa item logs) P := by
  have hnd : ((coreRecs now width duration inspect fa item logs).map Prod.fst).Nodup :=
    fold_keys_nodup now width duration inspect fa item logs _ [] (by simp)
  simp only [groupPanelViewCore]
  constructor
  · rintro ⟨l, hl, r, hr, hP⟩
    obtain ⟨f, hf, hfl⟩ := List.mem_map.mp hl
    rcases hflk : (coreRecs now width duration inspect fa item logs).lookup f with _ | l0
    · rw [← hfl, hflk] at hr
      simp at hr
    · have hmem := lookup_mem _ f l0 hflk
      refine ⟨(f, l0), hmem, r, ?_, hP⟩
      rw [← hfl, hflk] at hr
      simpa using hr
  · rintro ⟨⟨f, l0⟩, he, r, hr, hP⟩
    have hflk : (coreRecs now width duration inspect fa item logs).lookup f = some l0 :=
      lookup_of_mem_nodup _ hnd f l0 he
    have hf : f ∈ (coreRecs now width duration inspect fa item logs).map Prod.fst :=
      List.mem_map.mpr ⟨(f, l0), he, rfl⟩
    have hfs : f ∈ sortBy (fun a b : Nat => decide (a ≤ b))
        ((coreRecs now width duration inspect fa item logs).map Prod.fst) :=
      (mem_sortBy _ _ _).mpr hf
    refine ⟨((coreRecs now width duration inspect fa item logs).lookup f).getD [],
      List.mem_map.mpr ⟨f, hfs, rfl⟩, r, ?_, hP⟩
    rw [hflk]
    simpa using hr

/-- The non-inspect drop condition in propositional form. -/
theorem dropOne_none_iff (duration : Option Int) (item : Group) (one : String)
    (delta : Int) :
    dropOne duration none item one delta = true
      ↔ (one ∈ item.excluded
          ∨ ∃ d, duration = some d ∧ delta > d ∧ one ∉ item.included) := by
  have hor : ∀ a b : Bool, (a || b) = true ↔ a = true ∨ b = true := fun a b => by simp
  have hand : ∀ a b : Bool, (a && b) = true ↔ a = true ∧ b = true := fun a b => by simp
  have hnot : ∀ b : Bool, (!b) = true ↔ b = false := fun b => by simp
  have hincl : (item.included.contains one = false) ↔ one ∉ item.included := by
    constructor
    · intro h hm
      exact Bool.noConfusion ((List.elem_iff.mpr hm).symm.trans h)
    · intro h
      cases hc : item.included.contains one
      · rfl
      · exact absurd (List.elem_iff.mp hc) h
  unfold dropOne
  cases duration with
  | none =>
      simp only [Bool.false_or]
      constructor
      · intro h
        exact Or.inl (List.elem_iff.mp h)
      · rintro (h | ⟨d, hd, _⟩)
        · exact List.elem_iff.mpr h
        · exact Option.noConfusion hd
  | some d =>
      constructor
      · intro h
        rcases (hor _ _).mp h with h1 | h2
        · obtain ⟨hgt, hni⟩ := (hand _ _).mp h1
          exact Or.inr ⟨d, rfl, of_decide_eq_true hgt,
            hincl.mp ((hnot _).mp hni)⟩
        · exact Or.inl (List.elem_iff.mp h2)
      · rintro (h | ⟨d', hd', hgt, hni⟩)
        · exact (hor _ _).mpr (Or.inr (List.elem_iff.mpr h))
        · have hd : d = d' := Option.some.inj hd'
          subst hd
          exact (hor _ _).mpr (Or.inl ((hand _ _).mpr
            ⟨decide_eq_true hgt, (hnot _).mpr (hincl.mpr hni)⟩))

theorem scanOne_isSome_iff (now : Int) (width : Option Nat) (duration : Option Int)
    (fa : Findall) (item : Group) (one : String) (fns : List LogFile)
    (f0 : LogFile) (fs : List LogFile) (hsf : sortFns fns = f0 :: fs) :
    (scanOne now width duration none fa item one fns).isSome
      ↔ ¬(one ∈ item.excluded
          ∨ ∃ d, duration = some d ∧ now - f0.mtime > d ∧ one ∉ item.included) := by
  unfold scanOne
  rw [hsf]
  simp only []
  by_cases hBool : dropOne duration none item one (now - f0.mtime) = true
  · have hR := (dropOne_none_iff duration item one (now - f0.mtime)).mp hBool
    simp [if_pos hBool, hR]
  · have hR : ¬(one ∈ item.excluded
        ∨ ∃ d, duration = some d ∧ now - f0.mtime > d ∧ one ∉ item.included) :=
      fun hR => hBool ((dropOne_none_iff duration item one (now - f0.mtime)).mpr hR)
    simp [if_neg hBool, hR]

/-- C3: in a non-inspect scan an identity appears in the output iff it is
NOT dropped, and it is dropped iff it is excluded, or the duration
threshold is set and its idle seconds exceed it and it is not included —
in particular an identity that is both included and excluded is dropped
(the exclude disjunct needs no include test). -/
theorem c3_drop_filter (now : Int) (width : Option Nat) (duration : Option Int)
    (fa : Findall) (item : Group) (logs : List (String × List LogFile))
    (one : String) (fns : List LogFile) (f0 : LogFile) (fs : List LogFile)
    (hlk : logs.lookup one = some fns)
    (hsf : sortFns fns = f0 :: fs) :
    (∃ l ∈ (groupPanelViewCore now width duration none fa item logs).2,
        ∃ r ∈ l, PanelRec.identity r = one)
      ↔ ¬(one ∈ item.excluded
          ∨ ∃ d, duration = some d ∧ now - f0.mtime > d ∧ one ∉ item.included) := by
  rw [core_out_iff]
  unfold coreRecs
  rw [fold_inRecsP]
  have hnil : ¬ InRecsP [] (fun r => r.identity = one) := by
    rintro ⟨e, he, _⟩
    cases he
  constructor
  · rintro (h | ⟨k, _, fns', r, hl, hs, hP⟩)
    · exact absurd h hnil
    · have hid := scanOne_identity _ _ _ _ _ _ _ _ _ hs
      rw [hid] at hP
      subst hP
      rw [hlk] at hl
      have hfns : fns = fns' := Option.some.inj hl
      subst hfns
      have hi : (scanOne now width duration none fa item k fns).isSome := by
        rw [hs]
        rfl
      exact (scanOne_isSome_iff now width duration fa item k fns f0 fs hsf).mp hi
  · intro hkeep
    have hi := (scanOne_isSome_iff now width duration fa item one fns f0 fs hsf).mpr hkeep
    obtain ⟨r, hr⟩ := Option.isSome_iff_exists.mp hi
    refine Or.inr ⟨one, ?_, fns, r, hlk, hr, scanOne_identity _ _ _ _ _ _ _ _ _ hr⟩
    exact (mem_sortBy _ _ _).mpr
      (List.mem_map.mpr ⟨(one, fns), lookup_mem _ _ _ hlk, rfl⟩)

/-- C3, witness: one identity, non-inspect scan with a threshold, neither
included nor excluded and not idle beyond the threshold: the record is in
the output, and indeed the drop condition is false. -/
theorem c3_drop_filter_witness :
    (∃ l ∈ (groupPanelViewCore 150 none (some 1000) none (fun _ _ => [])
        ⟨"{name}.log", "done", false, [], [], [], []⟩
        [("run1", [⟨"run1.log", 100, "x"⟩])]).2,
      ∃ r ∈ l, PanelRec.identity r = "run1")
    ↔ ¬("run1" ∈ (⟨"{name}.log", "done", false, [], [], [], []⟩ : Group).excluded
        ∨ ∃ d, (some 1000 : Option Int) = some d
            ∧ 150 - (⟨"run1.log", 100, "x"⟩ : LogFile).mtime > d
            ∧ "run1" ∉ (⟨"{name}.log", "done", false, [], [], [], []⟩ : Group).included) :=
  c3_drop_filter 150 none (some 1000) (fun _ _ => [])
    ⟨"{name}.log", "done", false, [], [], [], []⟩
    [("run1", [⟨"run1.log", 100, "x"⟩])] "run1" [⟨"run1.log", 100, "x"⟩]
    ⟨"run1.log", 100, "x"⟩ [] rfl rfl

theorem innerLoop_nomatch (fa : Findall) (ptr : Nat) (t : String) (found : Found) :
    ∀ (occs : List (Nat × String)) (tmp : Found) (dec : Int),
    (∀ iq ∈ occs, fa iq.2 t = []) →
    innerLoop fa ptr t found occs tmp dec = (tmp, dec) := by
  intro occs
  induction occs with
  | nil => intro tmp dec _; rfl
  | cons iq rest ih =>
      intro tmp dec h
      obtain ⟨i, q⟩ := iq
      have hq : fa q t = [] := h (i, q) (List.mem_cons_self _ _)
      have hrest := fun x hx => h x (List.mem_cons_of_mem _ hx)
      by_cases hf : (List.lookup q found).isNone
      · have hstep : innerLoop fa ptr t found ((i, q) :: rest) tmp dec
            = innerLoop fa ptr t found rest tmp dec := by
          simp [innerLoop, hf, hq]
        rw [hstep]
        exact ih tmp dec hrest
      · have hstep : innerLoop fa ptr t found ((i, q) :: rest) tmp dec
            = innerLoop fa ptr t found rest tmp dec := by
          simp [innerLoop, hf]
        rw [hstep]
        exact ih tmp dec hrest

theorem probeGo_nomatch (fa : Findall) (occs : List (Nat × String)) :
    ∀ (texts : List String) (found : Found) (remain : Int) (reads : Nat),
    (∀ t ∈ texts, ∀ iq ∈ occs, fa iq.2 t = []) →
    (probeGo fa occs texts found remain reads).1 = found := by
  intro texts
  induction texts with
  | nil => intro found remain reads _; rfl
  | cons t rest ih =>
      intro found remain reads h
      by_cases hr : remain > 0
      · simp only [probeGo, if_pos hr]
        rw [innerLoop_nomatch fa reads t found occs [] 0
          (fun iq hiq => h t (List.mem_cons_self _ _) iq hiq)]
        exact ih found _ (reads + 1) (fun t' ht' => h t' (List.mem_cons_of_mem _ ht'))
      · rw [probeGo_stop _ _ _ _ _ _ hr]

/-- When no pattern matches any file, the resolution map stays empty. -/
theorem probe_nomatch (fa : Findall) (patterns : List String) (texts : List String)
    (h : ∀ p ∈ patterns, ∀ t ∈ texts, fa p t = []) :
    (probe fa patterns texts).1 = [] := by
  simp only [probe]
  apply probeGo_nomatch
  intro t ht iq hiq
  apply h
  · have hm : iq.2 ∈ patterns.enum.map Prod.snd := List.mem_map.mpr ⟨iq, hiq, rfl⟩
    rwa [List.enum_map_snd] at hm
  · exact ht

theorem buildItemStr_empty (width : Option Nat) :
    ∀ (occs : List (Nat × String)) (lines : List String),
    buildItemStr width [] occs lines = lines.reverse := by
  intro occs
  induction occs with
  | nil => intro lines; rfl
  | cons iq rest ih =>
      intro lines
      obtain ⟨i, q⟩ := iq
      by_cases hi : i = 0
      · simp [buildItemStr, hi, ih]
      · simp [buildItemStr, hi, List.lookup, ih]

/-- C8: an identity that passes the drop filter but whose files match no
pattern at all still yields a record in the output: the record carries the
identity, an empty resolution map, empty display lines, and is classified
ongoing (`flag = 0`) rather than being omitted. -/
theorem c8_empty_record (now : Int) (width : Option Nat) (duration : Option Int)
    (fa : Findall) (item : Group) (logs : List (String × List LogFile))
    (one : String) (fns : List LogFile) (f0 : LogFile) (fs : List LogFile)
    (hlk : logs.lookup one = some fns)
    (hsf : sortFns fns = f0 :: fs)
    (hkeep : ¬(one ∈ item.excluded
        ∨ ∃ d, duration = some d ∧ now - f0.mtime > d ∧ one ∉ item.included))
    (hnom : ∀ p ∈ mkPatterns item, ∀ f ∈ fns, fa p f.text = []) :
    ∃ l ∈ (groupPanelViewCore now width duration none fa item logs).2,
      ∃ r ∈ l, r.identity = one ∧ r.found = [] ∧ r.item_str = [] ∧ r.flag = 0 := by
  have hi := (scanOne_isSome_iff now width duration fa item one fns f0 fs hsf).mpr hkeep
  obtain ⟨r, hr⟩ := Option.isSome_iff_exists.mp hi
  have hprobe : (probe fa (mkPatterns item) ((f0 :: fs).map (fun f => f.text))).1 = [] := by
    apply probe_nomatch
    intro p hp t ht
    obtain ⟨f, hf, hft⟩ := List.mem_map.mp ht
    rw [← hft]
    apply hnom p hp
    rw [← hsf] at hf
    unfold sortFns at hf
    exact (mem_sortBy _ _ _).mp hf
  have hreq := scanOne_some_eq now width duration fa item one fns r f0 fs hsf hr
  have hfields : r.identity = one ∧ r.found = [] ∧ r.item_str = [] ∧ r.flag = 0 := by
    rw [hreq]
    refine ⟨rfl, hprobe, ?_, ?_⟩
    · show buildItemStr width
        (probe fa (mkPatterns item) ((f0 :: fs).map (fun f => f.text))).1
        (mkPatterns item).enum [] = []
      rw [hprobe, buildItemStr_empty]
      rfl
    · show (if List.lookup item.ending
          (probe fa (mkPatterns item) ((f0 :: fs).map (fun f => f.text))).1
          = some (PVal.idx 0) then 1 else 0) = 0
      rw [hprobe]
      simp [List.lookup]
  rw [core_out_iff]
  unfold coreRecs
  rw [fold_inRecsP]
  refine Or.inr ⟨one, ?_, fns, r, hlk, hr, hfields⟩
  exact (mem_sortBy _ _ _).mpr
    (List.mem_map.mpr ⟨(one, fns), lookup_mem _ _ _ hlk, rfl⟩)

/-- C8, witness: a kept identity whose only file matches nothing still
appears in the output with empty fields and ongoing classification. -/
theorem c8_empty_record_witness :
    ∃ l ∈ (groupPanelViewCore 150 none none none (fun _ _ => [])
        ⟨"{name}.log", "done", false, [], [], [], []⟩
        [("run1", [⟨"run1.log", 100, "hello"⟩])]).2,
      ∃ r ∈ l, r.identity = "run1" ∧ r.found = [] ∧ r.item_str = [] ∧ r.flag = 0 :=
  c8_empty_record 150 none none (fun _ _ => [])
    ⟨"{name}.log", "done", false, [], [], [], []⟩
    [("run1", [⟨"run1.log", 100, "hello"⟩])] "run1" [⟨"run1.log", 100, "hello"⟩]
    ⟨"run1.log", 100, "hello"⟩ [] rfl rfl
    (by rintro (h | ⟨d, hd, _, _⟩)
        · cases h
        · exact Option.noConfusion hd)
    (fun p _ f _ => rfl)

end Taskmgr
